import Mathlib

/-!
# Verification of the fastjson core (parser, value model, fast numeric decoders)

A shallow embedding of the repository's Go sources into Lean 4.

Go strings are modelled as lists of bytes (`List Nat`, each element < 256 in
practice).  Machine integers are modelled as `Nat`/`Int` with explicit
wrap-around (`% 2^64`) where the Go code could overflow.  Fallible Go
functions returning `(T, error)` become `Option`/`Except`.  Errors produced
via `fmt.Errorf` are modelled as structured inductive values, one constructor
per format string; the textual payloads (quoted tails etc.) are abstracted.
-/

namespace Fastjson

/-- A Go string/byte-slice: a list of byte values. -/
abbrev Str := List Nat

/-- Bytes of an ASCII Lean string literal (used to write concrete inputs). -/
def strBytes (s : String) : Str := s.data.map Char.toNat

/-- ASCII digit test, `'0' <= c && c <= '9'` in the Go sources. -/
def isDigit (c : Nat) : Bool := 48 ≤ c && c ≤ 57

/-- `strings.IndexByte`: index of the first occurrence of byte `c`. -/
def idxOf (c : Nat) : Str → Option Nat
  | [] => none
  | b :: rest => if b = c then some 0 else (idxOf c rest).map (· + 1)

/-- Numeric value of a digit string (most significant first). -/
def digitsVal (l : Str) : Nat := l.foldl (fun a c => a * 10 + (c - 48)) 0

/-- Every byte is an ASCII digit. -/
def allDigits (l : Str) : Bool := l.all isDigit

/-- Leading-digit count of a byte string. -/
def digCount (s : Str) : Nat := (s.takeWhile isDigit).length

/-- ASCII lower-casing of one byte (`A`-`Z` to `a`-`z`). -/
def toLowerB (c : Nat) : Nat := if 65 ≤ c ∧ c ≤ 90 then c + 32 else c

/-- `strings.EqualFold` restricted to the ASCII alphabet.  The Go function
folds Unicode case, but for the comparisons performed by the sources
(`"inf"`, `"infinity"`, `"nan"`) ASCII folding is extensionally identical. -/
def eqFold (a b : Str) : Bool := a.map toLowerB = b.map toLowerB

/-! ## fastfloat: integer parsers (`fastfloat/parse.go`)

`ParseUint64`, `ParseInt64` and their best-effort forms share their digit
loop and their three-way outcome (own accumulator / fallback to `strconv` /
parse failure) with the strict forms, differing only in how errors are
reported.  Each pair is therefore embedded through a shared core returning
an explicit three-way result, and the public functions interpret it. -/

/-- `strconv.ParseUint(s, 10, 64)`.  Modelled from the Go standard library
documentation: base-10 digits only (no sign), empty input and out-of-range
values are errors. -/
def strconvParseUint (s : Str) : Option Nat :=
  if s ≠ [] ∧ allDigits s then
    let v := digitsVal s
    if v < 2 ^ 64 then some v else none
  else none

/-- `strconv.ParseInt(s, 10, 64)`.  Modelled from the Go standard library
documentation: one optional `+`/`-` sign, base-10 digits, range
`[-2^63, 2^63-1]`; empty digit strings and out-of-range values are errors. -/
def strconvParseInt (s : Str) : Option Int :=
  match s with
  | [] => none
  | c :: rest =>
    let neg := c = 45
    let ds := if c = 45 ∨ c = 43 then rest else s
    if ds ≠ [] ∧ allDigits ds then
      let v : Int := (digitsVal ds : Nat)
      let v := if neg then -v else v
      if -2 ^ 63 ≤ v ∧ v < 2 ^ 63 then some v else none
    else none

/-- Outcome of the hand-rolled digit loop of the integer parsers:
either the loop fell back to the standard library (`i > 18` after a digit),
or it stopped with accumulator `d`, index `i` and the unconsumed rest. -/
inductive ULoop where
  | fb : ULoop
  | done (d : Nat) (i : Nat) (rest : Str) : ULoop
deriving DecidableEq

/-- The digit-accumulation loop shared by `ParseUint64`,
`ParseUint64BestEffort` (and, with index starting after the sign,
`ParseInt64`/`ParseInt64BestEffort`): `d = d*10 + digit` on `uint64`
(wrap-around modelled by `% 2^64`), stopping on the first non-digit and
falling back as soon as the index `i` exceeds 18. -/
def uintLoop : Str → Nat → Nat → ULoop
  | [], i, d => .done d i []
  | c :: rest, i, d =>
    if isDigit c then
      let d := (d * 10 + (c - 48)) % 2 ^ 64
      let i := i + 1
      if i > 18 then .fb
      else uintLoop rest i d
    else .done d i (c :: rest)

/-- Three-way result of the shared body of `ParseUint64` /
`ParseUint64BestEffort`. -/
inductive U64Res where
  | err : U64Res
  | fb : U64Res
  | val (v : Nat) : U64Res
deriving DecidableEq

/-- Shared body of `ParseUint64` and `ParseUint64BestEffort`: empty input is
an error; the digit loop runs from index 0; no digit consumed or an
unconsumed tail is an error; `i > 18` falls back to `strconv.ParseUint`. -/
def parseUint64Core (s : Str) : U64Res :=
  if s = [] then .err
  else
    match uintLoop s 0 0 with
    | .fb => .fb
    | .done d i rest =>
      if i ≤ 0 then .err
      else if rest ≠ [] then .err
      else .val d

/-- `fastfloat.ParseUint64`. -/
def ParseUint64 (s : Str) : Option Nat :=
  match parseUint64Core s with
  | .err => none
  | .fb => strconvParseUint s
  | .val v => some v

/-- `fastfloat.ParseUint64BestEffort`. -/
def ParseUint64BestEffort (s : Str) : Nat :=
  match parseUint64Core s with
  | .err => 0
  | .fb => (strconvParseUint s).getD 0
  | .val v => v

/-- Three-way result of the shared body of `ParseInt64` /
`ParseInt64BestEffort`. -/
inductive I64Res where
  | err : I64Res
  | fb : I64Res
  | val (v : Int) : I64Res
deriving DecidableEq

/-- Shared body of `ParseInt64` and `ParseInt64BestEffort`: a leading `-` is
stripped (with nothing after it an error) and the digit loop then starts at
index 1; otherwise at index 0.  The `int64` accumulator can never wrap on the
non-fallback path (at most 18 digits, so `d < 10^18 < 2^63`), so it is
faithfully represented by the `Nat` accumulator of `uintLoop` negated at the
end. -/
def parseInt64Core (s : Str) : I64Res :=
  match s with
  | [] => .err
  | c :: rest =>
    let minus := c = 45
    if minus ∧ rest = [] then .err
    else
      let body := if minus then rest else s
      let i0 := if minus then 1 else 0
      match uintLoop body i0 0 with
      | .fb => .fb
      | .done d i r =>
        if i ≤ i0 then .err
        else if r ≠ [] then .err
        else .val (if minus then -(d : Int) else (d : Int))

/-- `fastfloat.ParseInt64`. -/
def ParseInt64 (s : Str) : Option Int :=
  match parseInt64Core s with
  | .err => none
  | .fb => strconvParseInt s
  | .val v => some v

/-- `fastfloat.ParseInt64BestEffort`. -/
def ParseInt64BestEffort (s : Str) : Int :=
  match parseInt64Core s with
  | .err => 0
  | .fb => (strconvParseInt s).getD 0
  | .val v => v

/-! ## fastfloat: float parser control flow (`Parse` / `ParseBestEffort`)

`Parse` and `ParseBestEffort` have byte-for-byte identical branching
structure (the best-effort form only replaces each `return 0, error` by
`return 0`).  Which branch an input takes never depends on a floating-point
value, so the control flow is embedded as a path function shared by both;
the actual `float64` results are outside the embedding. -/

/-- The `float64pow10` table: the exact powers `1e0 … 1e16` (17 entries; all
are exactly representable in `float64`, so their mathematical values are
faithful). -/
def float64pow10 : List Nat :=
  [1, 10, 100, 1000, 10000, 100000, 1000000, 10000000, 100000000,
   1000000000, 10000000000, 100000000000, 1000000000000, 10000000000000,
   100000000000000, 1000000000000000, 10000000000000000]

/-- Which `return` statement of `fastfloat.Parse` fires for a given input. -/
inductive FPath where
  | errEmpty        -- empty input
  | errMinusOnly    -- lone `-`
  | errDotFormat    -- `.` not followed by a digit at the start
  | fbInt           -- integer loop fell back (`i > 18`)
  | specialInf      -- `inf` / `infinity`
  | specialNan      -- `nan`
  | errSpecialTail  -- no digits and not a special token
  | fastInt         -- returned on the just-integer fast path
  | fastFracElided  -- trailing `.` with elided fractional part
  | fbMant          -- fractional loop fell back (`i-j >= len(float64pow10)`)
  | fastFrac        -- returned on the fractional fast path
  | errExp          -- missing/empty exponent digits
  | fbExp           -- exponent loop fell back (`exp > 300`)
  | fastExp         -- returned after the exponent
  | errTrailing     -- unparsed trailing bytes
deriving DecidableEq

/-- Integer-part loop of `Parse`: advances `i` over digits, falling back as
soon as `i > 18`; returns the final `i` and the unconsumed rest. -/
def fIntLoop : Str → Nat → Sum Unit (Nat × Str)
  | [], i => .inr (i, [])
  | c :: rest, i =>
    if isDigit c then
      let i := i + 1
      if i > 18 then .inl ()
      else fIntLoop rest i
    else .inr (i, c :: rest)

/-- Fractional-part loop of `Parse`: advances `i` over digits, falling back
as soon as `i - j ≥ len(float64pow10)` (`j` is the index at which the
integer part began, so `i - j` counts the integer digits, the decimal point
and the fractional digits consumed so far). -/
def fFracLoop : Str → Nat → Nat → Sum Unit (Nat × Str)
  | [], i, _ => .inr (i, [])
  | c :: rest, i, j =>
    if isDigit c then
      let i := i + 1
      if i - j ≥ float64pow10.length then .inl ()
      else fFracLoop rest i j
    else .inr (i, c :: rest)

/-- Exponent loop of `Parse`: accumulates the exponent, falling back as soon
as it exceeds 300; returns the number of digits consumed and the rest. -/
def fExpLoop : Str → Nat → Nat → Sum Unit (Nat × Str)
  | [], _, k => .inr (k, [])
  | c :: rest, e, k =>
    if isDigit c then
      let e := e * 10 + (c - 48)
      if e > 300 then .inl ()
      else fExpLoop rest e (k + 1)
    else .inr (k, c :: rest)

/-- Exponent part of `Parse` (the `s[i] == 'e' || s[i] == 'E'` block and the
final `return`), for a nonempty remainder. -/
def fExpPart (rest : Str) : FPath :=
  match rest with
  | [] => .errTrailing
  | c :: r2 =>
    if c = 101 ∨ c = 69 then
      match r2 with
      | [] => .errExp
      | c2 :: r3 =>
        let signed := c2 = 43 ∨ c2 = 45
        if signed ∧ r3 = [] then .errExp
        else
          match fExpLoop (if signed then r3 else r2) 0 0 with
          | .inl () => .fbExp
          | .inr (k, rest5) =>
            if k = 0 then .errExp
            else if rest5 = [] then .fastExp
            else .errTrailing
    else .errTrailing

/-- Fractional part of `Parse` after the decimal point (with at least one
byte following it): run the fractional loop, falling back on `.inl`; the
unreachable `i < k` check of the source is elided because the loop only
increments `i`. -/
def fFracPart (frac : Str) (i j : Nat) : FPath :=
  match fFracLoop frac (i + 1) j with
  | .inl () => .fbMant
  | .inr (_i2, rest3) =>
    if rest3 = [] then .fastFrac
    else fExpPart rest3

/-- Continuation of `Parse` after the integer-part loop stopped at index `i`
with remainder `rest` (`j` is the index where the integer part began):
special tokens, fast integer path, fractional part, exponent part. -/
def fAfterInt (i j : Nat) (rest : Str) : FPath :=
  if i ≤ j ∧ rest.headD 0 ≠ 46 then
    let ss := if rest.headD 0 = 43 then rest.tail else rest
    if eqFold ss (strBytes "inf") ∨ eqFold ss (strBytes "infinity") then
      .specialInf
    else if eqFold ss (strBytes "nan") then .specialNan
    else .errSpecialTail
  else if rest = [] then .fastInt
  else if rest.headD 0 = 46 then
    match rest.tail with
    | [] => .fastFracElided
    | frac => fFracPart frac i j
  else fExpPart rest

/-- The control flow of `fastfloat.Parse` (and of `ParseBestEffort`, whose
branch conditions are identical): which return statement handles `s`. -/
def parsePath (s : Str) : FPath :=
  match s with
  | [] => .errEmpty
  | c0 :: rest0 =>
    let minus := c0 = 45
    if minus ∧ rest0 = [] then .errMinusOnly
    else
      let body := if minus then rest0 else c0 :: rest0
      let j := if minus then 1 else 0
      match body with
      | [] => .errMinusOnly    -- unreachable: body is nonempty here
      | b0 :: brest =>
        if b0 = 46 ∧ (brest = [] ∨ isDigit (brest.headD 0) = false) then
          .errDotFormat
        else
          match fIntLoop body j with
          | .inl () => .fbInt
          | .inr (i, rest) => fAfterInt i j rest


/-! ## fastjson: data model and raw tokenizers (`validate.go`)

The parser's arena (`cache`) only affects allocation, never the parse
result, so values are built directly as a tree.  The working-buffer copy
(`p.b = append(p.b[:0], s...)`) is the identity at the level of byte
values and is elided. -/

/-- `Value`: the tagged JSON node.  `vObject` carries the `Object` record's
two fields (ordered key/value pairs and the `keysUnescaped` flag) inline. -/
inductive Val where
  | vNull
  | vTrue
  | vFalse
  | vNumber (s : Str)
  | vString (s : Str)
  | vRawString (s : Str)
  | vArray (a : List Val)
  | vObject (kvs : List (Str × Val)) (keysUnescaped : Bool)

/-- Structural parse errors, one constructor per `fmt.Errorf` format string
of the parser; the quoted text payloads are abstracted.  `inX e` models
`fmt.Errorf("cannot parse X: %s", err)` wrapping. -/
inductive PErr where
  | outOfFuel           -- artifact of the fuel encoding, never reached
  | emptyInput          -- "cannot parse empty string"
  | tooDeep             -- "too big depth for the nested JSON..."
  | unexpectedValue     -- "unexpected value found"
  | unexpectedChar      -- parseRawNumber: "unexpected char"
  | missingStringClose  -- missing closing quote
  | missingArrayClose   -- "missing ']'"
  | unexpectedEndArray  -- "unexpected end of array"
  | missingCommaArray   -- "missing ',' after array value"
  | missingObjectClose  -- "missing '}'"
  | missingKeyQuote     -- missing opening quote for object key
  | missingColon        -- "missing ':' after object key"
  | unexpectedEndObject -- "unexpected end of object"
  | missingCommaObject  -- "missing ',' after object value"
  | inObject (e : PErr)
  | inArray (e : PErr)
  | inString (e : PErr)
  | inNumber (e : PErr)
  | inArrayValue (e : PErr)
  | inObjectKey (e : PErr)
  | inObjectValue (e : PErr)
deriving DecidableEq

/-- The four JSON whitespace bytes (space, LF, tab, CR). -/
def isWS (c : Nat) : Bool := c = 32 || c = 10 || c = 9 || c = 13

/-- The loop of `skipWSSlow` from index 1 onwards. -/
def wsDrop : Str → Str
  | [] => []
  | c :: rest => if isWS c then wsDrop rest else c :: rest

/-- `skipWSSlow`. -/
def skipWSSlow (s : Str) : Str :=
  match s with
  | [] => []
  | c :: rest => if isWS c = false then c :: rest else wsDrop rest

/-- `skipWS`: fast path when the first byte is above `0x20`. -/
def skipWS (s : Str) : Str :=
  match s with
  | [] => []
  | c :: rest => if c > 32 then c :: rest else skipWSSlow (c :: rest)

/-- The backward backslash scan of `parseRawString`'s slow path: starting
from index `i`, step left while the previous byte is `\\`. -/
def backCount (s : Str) : Nat → Nat
  | 0 => 0
  | i + 1 => if s.getD i 0 = 92 then backCount s i else i + 1

/-- The slow-path loop of `parseRawString`: `ss` is the original slice, `s`
the current suffix, `n` the index in `s` of a quote preceded by `\\`.
Fuelled; each iteration strictly shortens `s`, so `ss.length + 1` fuel
always suffices. -/
def prsLoop (ss : Str) : Nat → Str → Nat → Except PErr (Str × Str)
  | 0, _, _ => .error .outOfFuel
  | fuel + 1, s, n =>
    if (n - backCount s (n - 1)) % 2 = 0 then
      .ok (ss.take (ss.length - s.length + n), s.drop (n + 1))
    else
      match idxOf 34 (s.drop (n + 1)) with
      | none => .error .missingStringClose
      | some n2 =>
        if n2 = 0 ∨ (s.drop (n + 1)).getD (n2 - 1) 0 ≠ 92 then
          .ok (ss.take (ss.length - (s.drop (n + 1)).length + n2),
            (s.drop (n + 1)).drop (n2 + 1))
        else prsLoop ss fuel (s.drop (n + 1)) n2

/-- `parseRawString`: find the closing quote of a string whose opening quote
has already been consumed; returns the raw inside and the tail after the
quote. -/
def parseRawString (s : Str) : Except PErr (Str × Str) :=
  match idxOf 34 s with
  | none => .error .missingStringClose
  | some n =>
    if n = 0 ∨ s.getD (n - 1) 0 ≠ 92 then .ok (s.take n, s.drop (n + 1))
    else prsLoop s (s.length + 1) s n

/-- The linear scan of `parseRawKey` (index `i`, remaining suffix kept in
step with `orig.drop i`). -/
def parseRawKeyGo (orig : Str) : Str → Nat → Except PErr (Str × Str)
  | [], _ => .error .missingStringClose
  | c :: rest, i =>
    if c = 34 then .ok (orig.take i, rest)
    else if c = 92 then parseRawString orig
    else parseRawKeyGo orig rest (i + 1)

/-- `parseRawKey`: optimized raw-string scan for keys; falls back to
`parseRawString` on the first backslash. -/
def parseRawKey (s : Str) : Except PErr (Str × Str) := parseRawKeyGo s s 0

/-- The scan of `parseRawNumber` (original slice `s`, remaining suffix,
current index `i`). -/
def prnLoop (s : Str) : Str → Nat → Except PErr (Str × Str)
  | [], _ => .ok (s, [])
  | c :: rest, i =>
    if (48 ≤ c ∧ c ≤ 57) ∨ c = 46 ∨ c = 45 ∨ c = 101 ∨ c = 69 ∨ c = 43 then
      prnLoop s rest (i + 1)
    else
      if i = 0 ∨ (i = 1 ∧ (s.getD 0 0 = 45 ∨ s.getD 0 0 = 43)) then
        if 3 ≤ (s.drop i).length then
          let xs := (s.drop i).take 3
          if eqFold xs (strBytes "inf") ∨ eqFold xs (strBytes "nan") then
            .ok (s.take (i + 3), s.drop (i + 3))
          else .error .unexpectedChar
        else .error .unexpectedChar
      else .ok (s.take i, s.drop i)

/-- `parseRawNumber`: maximal prefix over the number alphabet, with the
`inf`/`nan` special-token rescue at offset 0 or after a sign. -/
def parseRawNumber (s : Str) : Except PErr (Str × Str) := prnLoop s s 0

/-! ## fastjson: string unescaper (`unescapeStringBestEffort`) -/

/-- One hexadecimal digit (both cases), as accepted by
`strconv.ParseUint(xs, 16, 16)`. -/
def hexDigit (c : Nat) : Option Nat :=
  if 48 ≤ c ∧ c ≤ 57 then some (c - 48)
  else if 97 ≤ c ∧ c ≤ 102 then some (c - 87)
  else if 65 ≤ c ∧ c ≤ 70 then some (c - 55)
  else none

/-- `strconv.ParseUint(xs, 16, 16)` on a 4-byte slice (modelled from the Go
standard library documentation; four hex digits always fit 16 bits). -/
def parseHex4 (s : Str) : Option Nat :=
  match s with
  | [a, b, c, d] =>
    match hexDigit a, hexDigit b, hexDigit c, hexDigit d with
    | some x, some y, some z, some w =>
      some (((x * 16 + y) * 16 + z) * 16 + w)
    | _, _, _, _ => none
  | _ => none

/-- `unicode/utf16.IsSurrogate` (modelled from the Go standard library:
`0xD800 <= r < 0xE000`). -/
def isSurrogate (r : Nat) : Bool := 0xD800 ≤ r && r < 0xE000

/-- `unicode/utf16.DecodeRune` (modelled from the Go standard library): a
high/low surrogate pair combines to a supplementary code point, anything
else yields U+FFFD. -/
def decodeRune (r1 r2 : Nat) : Nat :=
  if 0xD800 ≤ r1 ∧ r1 < 0xDC00 ∧ 0xDC00 ≤ r2 ∧ r2 < 0xE000 then
    (r1 - 0xD800) * 1024 + (r2 - 0xDC00) + 0x10000
  else 0xFFFD

/-- UTF-8 encoding of a code point, as produced by Go's `string(rune)` for
the valid (non-surrogate) code points that reach it here. -/
def utf8Encode (r : Nat) : Str :=
  if r < 0x80 then [r]
  else if r < 0x800 then [192 + r / 64, 128 + r % 64]
  else if r < 0x10000 then
    [224 + r / 4096, 128 + (r / 64) % 64, 128 + r % 64]
  else
    [240 + r / 262144, 128 + (r / 4096) % 64, 128 + (r / 64) % 64,
     128 + r % 64]

/-- The slow-path loop of `unescapeStringBestEffort`: `b` is the output
accumulated so far, the head of the remaining input is the byte following a
backslash.  Fuelled; every iteration consumes at least one byte. -/
def unescapeLoop : Nat → Str → Str → Str
  | 0, b, _ => b
  | _ + 1, b, [] => b
  | fuel + 1, b, ch :: s =>
    let step : Str × Str :=
      if ch = 34 then (b ++ [34], s)
      else if ch = 92 then (b ++ [92], s)
      else if ch = 47 then (b ++ [47], s)
      else if ch = 98 then (b ++ [8], s)
      else if ch = 102 then (b ++ [12], s)
      else if ch = 110 then (b ++ [10], s)
      else if ch = 114 then (b ++ [13], s)
      else if ch = 116 then (b ++ [9], s)
      else if ch = 117 then
        if s.length < 4 then (b ++ [92, 117], s)
        else
          let xs := s.take 4
          match parseHex4 xs with
          | none => (b ++ [92, 117], s)
          | some x =>
            let s1 := s.drop 4
            if isSurrogate x = false then (b ++ utf8Encode x, s1)
            else if s1.length < 6 ∨ s1.getD 0 0 ≠ 92 ∨ s1.getD 1 0 ≠ 117 then
              (b ++ [92, 117] ++ xs, s1)
            else
              match parseHex4 ((s1.drop 2).take 4) with
              | none => (b ++ [92, 117] ++ xs, s1)
              | some x1 => (b ++ utf8Encode (decodeRune x x1), s1.drop 6)
      else (b ++ [92, ch], s)
    match idxOf 92 step.2 with
    | none => step.1 ++ step.2
    | some n => unescapeLoop fuel (step.1 ++ step.2.take n) (step.2.drop (n + 1))

/-- `unescapeStringBestEffort`: fast path when no backslash occurs; the Go
in-place aliasing of the output buffer is value-irrelevant and elided. -/
def unescapeStringBestEffort (s : Str) : Str :=
  match idxOf 92 s with
  | none => s
  | some n => unescapeLoop (s.length + 1) (s.take n) (s.drop (n + 1))

/-! ## fastjson: recursive-descent parser (`parseValue` and friends)

The mutual recursion of the Go source is embedded with an explicit fuel
argument decremented at every call; `4 * input-length + 8` fuel is always
passed at the top, which the theorems show is never exhausted on the inputs
they speak about. -/

/-- `MaxDepth` is the maximum depth for nested JSON. -/
def MaxDepth : Nat := 300

mutual

/-- `parseValue`: depth check, then dispatch on the first byte. -/
def parseValueF : Nat → Str → Nat → Except PErr (Val × Str)
  | 0, _, _ => .error .outOfFuel
  | fuel + 1, s, depth =>
    match s with
    | [] => .error .emptyInput
    | c :: rest =>
      let depth := depth + 1
      if depth > MaxDepth then .error .tooDeep
      else if c = 123 then          -- `{`
        match parseObjectF fuel rest depth with
        | .error e => .error (.inObject e)
        | .ok r => .ok r
      else if c = 91 then           -- `[`
        match parseArrayF fuel rest depth with
        | .error e => .error (.inArray e)
        | .ok r => .ok r
      else if c = 34 then           -- `"`
        match parseRawString rest with
        | .error e => .error (.inString e)
        | .ok (ss, tail) => .ok (.vRawString ss, tail)
      else if c = 116 then          -- `t`
        if 4 ≤ s.length ∧ s.take 4 = strBytes "true" then
          .ok (.vTrue, s.drop 4)
        else .error .unexpectedValue
      else if c = 102 then          -- `f`
        if 5 ≤ s.length ∧ s.take 5 = strBytes "false" then
          .ok (.vFalse, s.drop 5)
        else .error .unexpectedValue
      else if c = 110 then          -- `n`
        if 4 ≤ s.length ∧ s.take 4 = strBytes "null" then
          .ok (.vNull, s.drop 4)
        else if 3 ≤ s.length ∧ eqFold (s.take 3) (strBytes "nan") then
          .ok (.vNumber (s.take 3), s.drop 3)
        else .error .unexpectedValue
      else
        match parseRawNumber s with
        | .error e => .error (.inNumber e)
        | .ok (ns, tail) => .ok (.vNumber ns, tail)
termination_by structural fuel _ _ => fuel

/-- `parseArray`: immediate `]` yields the empty array, otherwise the
element loop. -/
def parseArrayF : Nat → Str → Nat → Except PErr (Val × Str)
  | 0, _, _ => .error .outOfFuel
  | fuel + 1, s, depth =>
    let s := skipWS s
    match s with
    | [] => .error .missingArrayClose
    | c :: rest =>
      if c = 93 then .ok (.vArray [], rest)
      else parseArrayLoopF fuel [] s depth
termination_by structural fuel _ _ => fuel

/-- The element loop of `parseArray`. -/
def parseArrayLoopF : Nat → List Val → Str → Nat → Except PErr (Val × Str)
  | 0, _, _, _ => .error .outOfFuel
  | fuel + 1, acc, s, depth =>
    let s := skipWS s
    match parseValueF fuel s depth with
    | .error e => .error (.inArrayValue e)
    | .ok (v, s1) =>
      let acc := acc ++ [v]
      match skipWS s1 with
      | [] => .error .unexpectedEndArray
      | c :: rest =>
        if c = 44 then parseArrayLoopF fuel acc rest depth
        else if c = 93 then .ok (.vArray acc, rest)
        else .error .missingCommaArray
termination_by structural fuel _ _ _ => fuel

/-- `parseObject`: immediate `}` yields the empty object (with
`keysUnescaped = false`), otherwise the member loop. -/
def parseObjectF : Nat → Str → Nat → Except PErr (Val × Str)
  | 0, _, _ => .error .outOfFuel
  | fuel + 1, s, depth =>
    let s := skipWS s
    match s with
    | [] => .error .missingObjectClose
    | c :: rest =>
      if c = 125 then .ok (.vObject [] false, rest)
      else parseObjectLoopF fuel [] s depth
termination_by structural fuel _ _ => fuel

/-- The member loop of `parseObject`: quoted raw key, colon, value. -/
def parseObjectLoopF : Nat → List (Str × Val) → Str → Nat →
    Except PErr (Val × Str)
  | 0, _, _, _ => .error .outOfFuel
  | fuel + 1, kvs, s, depth =>
    match skipWS s with
    | [] => .error .missingKeyQuote
    | c :: rest =>
      if c ≠ 34 then .error .missingKeyQuote
      else
        match parseRawKey rest with
        | .error e => .error (.inObjectKey e)
        | .ok (k, s1) =>
          match skipWS s1 with
          | [] => .error .missingColon
          | c2 :: rest2 =>
            if c2 ≠ 58 then .error .missingColon
            else
              match parseValueF fuel (skipWS rest2) depth with
              | .error e => .error (.inObjectValue e)
              | .ok (v, s4) =>
                let kvs := kvs ++ [(k, v)]
                match skipWS s4 with
                | [] => .error .unexpectedEndObject
                | c3 :: rest3 =>
                  if c3 = 44 then parseObjectLoopF fuel kvs rest3 depth
                  else if c3 = 125 then .ok (.vObject kvs false, rest3)
                  else .error .missingCommaObject
termination_by structural fuel _ _ _ => fuel

end

/-- Top-level parse errors of `Parser.Parse`. -/
inductive TopErr where
  | cannotParseJSON (e : PErr)  -- "cannot parse JSON: %s; unparsed tail: %q"
  | unexpectedTail              -- "unexpected tail: %q"
deriving DecidableEq

/-- `Parser.Parse`: skip leading whitespace, parse one value at depth 0,
then reject any non-whitespace tail.  (The copy of the input into the
parser's working buffer is the identity on byte values and is elided.) -/
def Parse (s : Str) : Except TopErr Val :=
  let s1 := skipWS s
  match parseValueF (4 * s1.length + 8) s1 0 with
  | .error e => .error (.cannotParseJSON e)
  | .ok (v, tail) =>
    if skipWS tail ≠ [] then .error .unexpectedTail
    else .ok v

/-! ## fastjson: marshaling (`MarshalTo`) -/

/-- `hasSpecialChars`: a quote, backslash or control byte forces the slow
escaping path. -/
def hasSpecialChars (s : Str) : Bool :=
  (idxOf 34 s).isSome || (idxOf 92 s).isSome || s.any (· < 32)

/-- One byte of `strconv.AppendQuote`'s output (modelled from the Go
standard library documentation): quote and backslash are escaped, the named
control escapes are used, other control bytes become `\xHH`, and the
remaining bytes are emitted verbatim (the inputs quoted by this package are
valid UTF-8 from its own buffers). -/
def quoteByte (c : Nat) : Str :=
  if c = 34 then [92, 34]
  else if c = 92 then [92, 92]
  else if c = 7 then [92, 97]
  else if c = 8 then [92, 98]
  else if c = 12 then [92, 102]
  else if c = 10 then [92, 110]
  else if c = 13 then [92, 114]
  else if c = 9 then [92, 116]
  else if c = 11 then [92, 118]
  else if c < 32 then
    [92, 120, if c / 16 < 10 then 48 + c / 16 else 87 + c / 16,
     if c % 16 < 10 then 48 + c % 16 else 87 + c % 16]
  else [c]

/-- `strconv.AppendQuote` (modelled from the Go standard library
documentation), specialised to the byte strings this package quotes. -/
def appendQuote (dst : Str) (s : Str) : Str :=
  dst ++ [34] ++ (s.map quoteByte).flatten ++ [34]

/-- `escapeString`: fast path emits the string between quotes verbatim,
slow path uses `strconv.AppendQuote`. -/
def escapeString (dst : Str) (s : Str) : Str :=
  if hasSpecialChars s = false then dst ++ [34] ++ s ++ [34]
  else appendQuote dst s

/-- Key emission inside `Object.MarshalTo`: raw between quotes while
`keysUnescaped` is false, through the escaper afterwards. -/
def marshalKey (dst : Str) (k : Str) (keysUnescaped : Bool) : Str :=
  if keysUnescaped then escapeString dst k
  else dst ++ [34] ++ k ++ [34]

mutual

/-- `Value.MarshalTo`. -/
def marshalValue (dst : Str) : Val → Str
  | .vRawString s => dst ++ [34] ++ s ++ [34]
  | .vObject kvs ku => marshalObjectItems (dst ++ [123]) kvs ku ++ [125]
  | .vArray a => marshalArrayItems (dst ++ [91]) a ++ [93]
  | .vString s => escapeString dst s
  | .vNumber s => dst ++ s
  | .vTrue => dst ++ strBytes "true"
  | .vFalse => dst ++ strBytes "false"
  | .vNull => dst ++ strBytes "null"

/-- The element loop of the array case of `MarshalTo` (comma after every
element but the last). -/
def marshalArrayItems (dst : Str) : List Val → Str
  | [] => dst
  | [v] => marshalValue dst v
  | v :: v2 :: rest =>
    marshalArrayItems (marshalValue dst v ++ [44]) (v2 :: rest)

/-- The member loop of `Object.MarshalTo`. -/
def marshalObjectItems (dst : Str) : List (Str × Val) → Bool → Str
  | [], _ => dst
  | [(k, v)], ku => marshalValue (marshalKey dst k ku ++ [58]) v
  | (k, v) :: p :: rest, ku =>
    marshalObjectItems (marshalValue (marshalKey dst k ku ++ [58]) v ++ [44])
      (p :: rest) ku

end

/-! ## fastjson: the validator (`Validate`)

The validator shares `parseRawString` with the parser and keeps its own
error values; like the parser it is embedded with a fuel argument. -/

/-- Validator errors, one constructor per `fmt.Errorf` format string. -/
inductive VErr where
  | outOfFuel
  | emptyInput
  | ctrlChar (b : Nat)     -- "string cannot contain control char 0x%02X"
  | ctrlCharKey (b : Nat)  -- "object key cannot contain control char 0x%02X"
  | unexpectedValue
  | missingArrayClose | unexpectedEndArray | missingCommaArray
  | missingObjectClose | missingKeyQuote | missingColon
  | unexpectedEndObject | missingCommaObject
  | missingStringClose
  | tooShortEscape | invalidEscapeHex | unknownEscape (c : Nat)
  | bugTrailingBackslash
  | zeroLengthNumber | missingNumberAfterMinus | expectingDigit
  | leadingZero | missingFraction | expectingFracDigit
  | missingExponent | expectingExpDigit
  | inObject (e : VErr) | inArray (e : VErr) | inString (e : VErr)
  | inNumber (e : VErr)
  | inArrayValue (e : VErr) | inObjectKey (e : VErr) | inObjectValue (e : VErr)
deriving DecidableEq

/-- The escape-sequence check loop of `validateString`. -/
def vStrLoop : Nat → Str → Except VErr Unit
  | 0, _ => .error .outOfFuel
  | fuel + 1, rs =>
    match idxOf 92 rs with
    | none => .ok ()
    | some n =>
      let n1 := n + 1
      if n1 ≥ rs.length then .error .bugTrailingBackslash
      else
        let ch := rs.getD n1 0
        let rs2 := rs.drop (n1 + 1)
        if ch = 34 ∨ ch = 92 ∨ ch = 47 ∨ ch = 98 ∨ ch = 102 ∨ ch = 110 ∨
            ch = 114 ∨ ch = 116 then
          vStrLoop fuel rs2
        else if ch = 117 then
          if rs2.length < 4 then .error .tooShortEscape
          else
            match parseHex4 (rs2.take 4) with
            | none => .error .invalidEscapeHex
            | some _ => vStrLoop fuel (rs2.drop 4)
        else .error (.unknownEscape ch)

/-- `validateString`: fast path for escape-free strings, slow path through
`parseRawString` followed by the escape check. -/
def validateString (s : Str) : Except VErr (Str × Str) :=
  match idxOf 34 s with
  | some n =>
    if (idxOf 92 (s.take n)).isNone then .ok (s.take n, s.drop (n + 1))
    else
      match parseRawString s with
      | .error _ => .error .missingStringClose
      | .ok (rs, tail) =>
        match vStrLoop (rs.length + 1) rs with
        | .error e => .error e
        | .ok _ => .ok (rs, tail)
  | none =>
    match parseRawString s with
    | .error _ => .error .missingStringClose
    | .ok (rs, tail) =>
      match vStrLoop (rs.length + 1) rs with
      | .error e => .error e
      | .ok _ => .ok (rs, tail)

/-- The linear scan of `validateKey`. -/
def validateKeyGo (orig : Str) : Str → Nat → Except VErr (Str × Str)
  | [], _ => .error .missingStringClose
  | c :: rest, i =>
    if c = 34 then .ok (orig.take i, rest)
    else if c = 92 then validateString orig
    else validateKeyGo orig rest (i + 1)

/-- `validateKey`. -/
def validateKey (s : Str) : Except VErr (Str × Str) := validateKeyGo s s 0

/-- The exponent tail of `validateNumber`. -/
def validateNumberExp (s : Str) : Except VErr Str :=
  match s with
  | [] => .ok []
  | c :: rest =>
    if c = 101 ∨ c = 69 then
      match rest with
      | [] => .error .missingExponent
      | c2 :: rest2 =>
        let body := if c2 = 45 ∨ c2 = 43 then rest2 else c2 :: rest2
        if (c2 = 45 ∨ c2 = 43) ∧ rest2 = [] then .error .missingExponent
        else
          let i := digCount body
          if i = 0 then .error .expectingExpDigit
          else .ok (body.drop i)
    else .ok (c :: rest)

/-- The fractional tail of `validateNumber`. -/
def validateNumberFrac (s : Str) : Except VErr Str :=
  match s with
  | [] => .ok []
  | c :: rest =>
    if c = 46 then
      match rest with
      | [] => .error .missingFraction
      | _ =>
        let i := digCount rest
        if i = 0 then .error .expectingFracDigit
        else validateNumberExp (rest.drop i)
    else validateNumberExp (c :: rest)

/-- `validateNumber`: optional minus, digits with the leading-zero rule,
optional fraction and exponent; returns the unconsumed tail. -/
def validateNumber (s : Str) : Except VErr Str :=
  match s with
  | [] => .error .zeroLengthNumber
  | c0 :: rest0 =>
    let s1 := if c0 = 45 then rest0 else c0 :: rest0
    if c0 = 45 ∧ rest0 = [] then .error .missingNumberAfterMinus
    else
      let i := digCount s1
      if i = 0 then .error .expectingDigit
      else if s1.getD 0 0 = 48 ∧ i ≠ 1 then .error .leadingZero
      else validateNumberFrac (s1.drop i)

mutual

/-- `validateValue`: dispatch on the first byte; the string case scans the
validated payload for control bytes. -/
def validateValueF : Nat → Str → Except VErr Str
  | 0, _ => .error .outOfFuel
  | fuel + 1, s =>
    match s with
    | [] => .error .emptyInput
    | c :: rest =>
      if c = 123 then
        match validateObjectF fuel rest with
        | .error e => .error (.inObject e)
        | .ok tail => .ok tail
      else if c = 91 then
        match validateArrayF fuel rest with
        | .error e => .error (.inArray e)
        | .ok tail => .ok tail
      else if c = 34 then
        match validateString rest with
        | .error e => .error (.inString e)
        | .ok (sv, tail) =>
          match sv.find? (fun b => b < 32) with
          | some b => .error (.ctrlChar b)
          | none => .ok tail
      else if c = 116 then
        if 4 ≤ s.length ∧ s.take 4 = strBytes "true" then .ok (s.drop 4)
        else .error .unexpectedValue
      else if c = 102 then
        if 5 ≤ s.length ∧ s.take 5 = strBytes "false" then .ok (s.drop 5)
        else .error .unexpectedValue
      else if c = 110 then
        if 4 ≤ s.length ∧ s.take 4 = strBytes "null" then .ok (s.drop 4)
        else .error .unexpectedValue
      else
        match validateNumber s with
        | .error e => .error (.inNumber e)
        | .ok tail => .ok tail
termination_by structural fuel _ => fuel

/-- `validateArray`. -/
def validateArrayF : Nat → Str → Except VErr Str
  | 0, _ => .error .outOfFuel
  | fuel + 1, s =>
    match skipWS s with
    | [] => .error .missingArrayClose
    | c :: rest =>
      if c = 93 then .ok rest
      else validateArrayLoopF fuel (c :: rest)
termination_by structural fuel _ => fuel

/-- The element loop of `validateArray`. -/
def validateArrayLoopF : Nat → Str → Except VErr Str
  | 0, _ => .error .outOfFuel
  | fuel + 1, s =>
    match validateValueF fuel (skipWS s) with
    | .error e => .error (.inArrayValue e)
    | .ok s1 =>
      match skipWS s1 with
      | [] => .error .unexpectedEndArray
      | c :: rest =>
        if c = 44 then validateArrayLoopF fuel rest
        else if c = 93 then .ok rest
        else .error .missingCommaArray
termination_by structural fuel _ => fuel

/-- `validateObject`. -/
def validateObjectF : Nat → Str → Except VErr Str
  | 0, _ => .error .outOfFuel
  | fuel + 1, s =>
    match skipWS s with
    | [] => .error .missingObjectClose
    | c :: rest =>
      if c = 125 then .ok rest
      else validateObjectLoopF fuel (c :: rest)
termination_by structural fuel _ => fuel

/-- The member loop of `validateObject`: the key passes `validateKey` and a
control-byte scan. -/
def validateObjectLoopF : Nat → Str → Except VErr Str
  | 0, _ => .error .outOfFuel
  | fuel + 1, s =>
    match skipWS s with
    | [] => .error .missingKeyQuote
    | c :: rest =>
      if c ≠ 34 then .error .missingKeyQuote
      else
        match validateKey rest with
        | .error e => .error (.inObjectKey e)
        | .ok (key, s1) =>
          match key.find? (fun b => b < 32) with
          | some b => .error (.ctrlCharKey b)
          | none =>
            match skipWS s1 with
            | [] => .error .missingColon
            | c2 :: rest2 =>
              if c2 ≠ 58 then .error .missingColon
              else
                match validateValueF fuel (skipWS rest2) with
                | .error e => .error (.inObjectValue e)
                | .ok s4 =>
                  match skipWS s4 with
                  | [] => .error .unexpectedEndObject
                  | c3 :: rest3 =>
                    if c3 = 44 then validateObjectLoopF fuel rest3
                    else if c3 = 125 then .ok rest3
                    else .error .missingCommaObject
termination_by structural fuel _ => fuel

end

/-- Top-level validator errors. -/
inductive VTopErr where
  | cannotParseJSON (e : VErr)
  | unexpectedTail
deriving DecidableEq

/-- `Validate`: `none` means the input is valid JSON. -/
def Validate (s : Str) : Option VTopErr :=
  let s1 := skipWS s
  match validateValueF (4 * s1.length + 8) s1 with
  | .error e => some (.cannotParseJSON e)
  | .ok tail =>
    if skipWS tail ≠ [] then some .unexpectedTail
    else none

/-! ## fastjson: stream scanner (`scanner.go`) -/

/-- A scanner error: the internal EOF sentinel (`errEOF`) or a parse
error. -/
inductive ScanErr where
  | eof
  | parseErr (e : PErr)
deriving DecidableEq

/-- `Scanner` state: the remaining input, the sticky error and the last
parsed value.  The working-buffer copy and the value cache only affect
allocation and are elided. -/
structure Scanner where
  s : Str
  err : Option ScanErr
  v : Option Val

/-- `Scanner.Init`. -/
def Scanner.init (s : Str) : Scanner := ⟨s, none, none⟩

/-- `Scanner.Next`: sticky error short-circuits; whitespace-only remainder
records the EOF sentinel; otherwise parse one value and advance. -/
def Scanner.next (sc : Scanner) : Bool × Scanner :=
  if sc.err ≠ none then (false, sc)
  else
    let s1 := skipWS sc.s
    if s1 = [] then (false, { sc with s := s1, err := some .eof })
    else
      match parseValueF (4 * s1.length + 8) s1 0 with
      | .error e => (false, { sc with s := s1, err := some (.parseErr e) })
      | .ok (v, tail) => (true, { sc with s := tail, v := some v })

/-- `Scanner.Error`: the sticky error with the EOF sentinel translated to
"no error". -/
def Scanner.error (sc : Scanner) : Option PErr :=
  match sc.err with
  | some .eof => none
  | some (.parseErr e) => some e
  | none => none

/-- `Scanner.Value`. -/
def Scanner.value (sc : Scanner) : Option Val := sc.v

/-! ## fastjson: object accessors and mutators (`validate.go`, `update.go`)

`Object` state is the pair of its two fields; operations return the
(possibly mutated) state alongside their result, making the in-place key
rewrites explicit. -/

/-- An object state: the ordered members and the `keysUnescaped` flag. -/
abbrev ObjState := List (Str × Val) × Bool

/-- `Object.unescapeKeys`: rewrite every key with the unescaper and set the
flag, unless it is already set. -/
def unescapeKeys (o : ObjState) : ObjState :=
  if o.2 then o
  else (o.1.map (fun p => (unescapeStringBestEffort p.1, p.2)), true)

/-- `Object.Get`: raw fast path (no unescaping) when the flag is unset and
the key has no backslash; otherwise — and when the fast scan misses —
unescape all keys in place and scan again. -/
def objectGet (o : ObjState) (key : Str) : Option Val × ObjState :=
  let fastHit : Option Val :=
    if o.2 = false ∧ (idxOf 92 key).isNone then
      (o.1.find? (fun p => decide (p.1 = key))).map (·.2)
    else none
  match fastHit with
  | some v => (some v, o)
  | none =>
    let o2 := unescapeKeys o
    ((o2.1.find? (fun p => decide (p.1 = key))).map (·.2), o2)

/-- `Object.Visit` calls its callback on every member in parse order, after
unescaping the keys; the result is the exact sequence of (key, value)
arguments passed to the callback, with the post-state. -/
def objectVisit (o : ObjState) : List (Str × Val) × ObjState :=
  let o2 := unescapeKeys o
  (o2.1, o2)

/-- Removal of the first member with the given key (the
`append(kvs[:i], kvs[i+1:]...)` of `Object.Del`). -/
def removeFirst (kvs : List (Str × Val)) (key : Str) : List (Str × Val) :=
  match kvs with
  | [] => []
  | p :: rest => if p.1 = key then rest else p :: removeFirst rest key

/-- `Object.Del`: fast removal over raw keys when possible, otherwise
unescape the keys first. -/
def objectDel (o : ObjState) (key : Str) : ObjState :=
  if o.2 = false ∧ (idxOf 92 key).isNone ∧
      (o.1.find? (fun p => decide (p.1 = key))).isSome then
    (removeFirst o.1 key, o.2)
  else
    let o2 := unescapeKeys o
    (removeFirst o2.1 key, o2.2)

/-- Replacement of the first member with the given key, else append (the
update/`getKV` logic of `Object.Set`). -/
def setFirst (kvs : List (Str × Val)) (key : Str) (v : Val) :
    List (Str × Val) :=
  match kvs with
  | [] => [(key, v)]
  | p :: rest =>
    if p.1 = key then (p.1, v) :: rest else p :: setFirst rest key v

/-- `Object.Set`: always unescapes the keys first, then updates in place or
appends.  (A nil value is normalized to the null singleton by the Go code;
the embedding takes the value directly.) -/
def objectSet (o : ObjState) (key : Str) (v : Val) : ObjState :=
  let o2 := unescapeKeys o
  (setFirst o2.1 key v, o2.2)

/-- The purely nested array value `[[...[]...]]` with `n` extra levels
around the empty array: the result of parsing `n+1` brackets. -/
def nestVal : Nat → Val
  | 0 => .vArray []
  | k + 1 => .vArray [nestVal k]

/-- The error `parseValue` reports when the depth check fires `k` array
levels below the entry point: the bare too-deep error wrapped once per
level by the array-element error contexts. -/
def depthErr : Nat → PErr
  | 0 => .tooDeep
  | k + 1 => .inArray (.inArrayValue (depthErr k))

/-! ## fastfloat: loop characterizations -/


/-- The integer-part loop of `Parse` consumes exactly an all-digit prefix
when the index stays at or below 18. -/
theorem fIntLoop_digits (l : Str) : ∀ (r : Str) (i : Nat), allDigits l = true →
    i + l.length ≤ 18 → (r = [] ∨ isDigit (r.headD 0) = false) →
    fIntLoop (l ++ r) i = .inr (i + l.length, r) := by
  induction l with
  | nil =>
    intro r i _ _ hr
    cases r with
    | nil => rfl
    | cons c rr =>
      rcases hr with h | h
      · exact absurd h (List.cons_ne_nil c rr)
      · simp only [List.headD] at h
        simp [fIntLoop, h]
  | cons c rest ih =>
    intro r i hd hlen hr
    simp only [allDigits, List.all_cons, Bool.and_eq_true] at hd
    obtain ⟨hc, hrest⟩ := hd
    simp only [List.length_cons] at hlen
    simp only [List.cons_append, fIntLoop, hc, if_true, List.append_eq]
    rw [if_neg (by omega), ih r (i + 1) hrest (by omega) hr]
    simp only [Sum.inr.injEq, Prod.mk.injEq, List.length_cons]
    exact ⟨by omega, trivial⟩

/-- The fractional loop of `Parse` falls back exactly when the count
`i - j` (integer digits + decimal point + fractional digits so far) would
reach the table size 17. -/
theorem fFracLoop_digits (l : Str) : ∀ (r : Str) (i j : Nat),
    allDigits l = true → j ≤ i → (r = [] ∨ isDigit (r.headD 0) = false) →
    fFracLoop (l ++ r) i j =
      (if l ≠ [] ∧ 17 ≤ i + l.length - j then .inl ()
       else .inr (i + l.length, r)) := by
  induction l with
  | nil =>
    intro r i j _ _ hr
    rw [if_neg (by simp)]
    cases r with
    | nil => rfl
    | cons c rr =>
      rcases hr with h | h
      · exact absurd h (List.cons_ne_nil c rr)
      · simp only [List.headD] at h
        simp [fFracLoop, h]
  | cons c rest ih =>
    intro r i j hd hji hr
    simp only [allDigits, List.all_cons, Bool.and_eq_true] at hd
    obtain ⟨hc, hrest⟩ := hd
    have hlen17 : float64pow10.length = 17 := rfl
    simp only [List.cons_append, fFracLoop, hc, if_true, hlen17,
      List.append_eq]
    by_cases h17 : i + 1 - j ≥ 17
    · have hpos : (c :: rest : Str) ≠ [] ∧ 17 ≤ i + (c :: rest).length - j :=
        ⟨List.cons_ne_nil c rest, by simp only [List.length_cons]; omega⟩
      simp only [if_pos h17, if_pos hpos]
    · rw [if_neg h17, ih r (i + 1) j hrest (by omega) hr]
      by_cases hcase : rest = [] ∨ ¬ (17 ≤ i + 1 + rest.length - j)
      · have hc1 : ¬ (rest ≠ [] ∧ 17 ≤ i + 1 + rest.length - j) := by
          rcases hcase with h | h
          · exact fun hx => hx.1 h
          · exact fun hx => h hx.2
        have hc2 : ¬ ((c :: rest : Str) ≠ [] ∧
            17 ≤ i + (c :: rest).length - j) := by
          intro hx
          have h2 := hx.2
          simp only [List.length_cons] at h2
          rcases hcase with h | h
          · subst h
            simp only [List.length_nil] at h2
            omega
          · omega
        rw [if_neg hc1, if_neg hc2]
        simp only [Sum.inr.injEq, Prod.mk.injEq, List.length_cons]
        exact ⟨by omega, trivial⟩
      · push_neg at hcase
        obtain ⟨hne, h17'⟩ := hcase
        have hpos : (c :: rest : Str) ≠ [] ∧ 17 ≤ i + (c :: rest).length - j :=
          ⟨List.cons_ne_nil c rest, by simp only [List.length_cons]; omega⟩
        rw [if_pos hpos]
        exact if_pos ⟨hne, h17'⟩

/-- After the integer part, a remainder starting with `.` and at least one
more byte goes to the fractional part. -/
theorem fAfterInt_dot (i j : Nat) (f0 : Nat) (fr : Str) :
    fAfterInt i j (46 :: f0 :: fr) = fFracPart (f0 :: fr) i j := by
  unfold fAfterInt
  rw [if_neg (fun h => h.2 rfl)]
  rfl

/-- The fractional part of `Parse` on a pure digit tail: it falls back
exactly when `i + 1 + frac.length - j` (the final loop count) reaches 17,
and otherwise finishes on the fractional fast path. -/
theorem fFracPart_digits (f : Str) (i j : Nat) (hf : allDigits f = true)
    (hne : f ≠ []) (hji : j ≤ i + 1) :
    fFracPart f i j =
      (if 17 ≤ i + 1 + f.length - j then FPath.fbMant else FPath.fastFrac) := by
  unfold fFracPart
  have h := fFracLoop_digits f [] (i + 1) j hf hji (Or.inl rfl)
  rw [List.append_nil] at h
  rw [h]
  by_cases hc : 17 ≤ i + 1 + f.length - j
  · rw [if_pos ⟨hne, hc⟩, if_pos hc]
  · rw [if_neg (fun hx => hc hx.2), if_neg hc]
    rfl

/-! ## Characterization of the integer digit loop -/

theorem digCount_nil : digCount [] = 0 := rfl

theorem digCount_cons (c : Nat) (r : Str) :
    digCount (c :: r) = if isDigit c then digCount r + 1 else 0 := by
  simp only [digCount, List.takeWhile]
  by_cases h : isDigit c <;> simp [h]

/-- The integer loop falls back exactly when the running index would pass 18,
i.e. exactly when the entry index plus the number of leading digits reaches 19. -/
theorem uintLoop_fb_iff (l : Str) : ∀ i d : Nat, i ≤ 18 →
    (uintLoop l i d = .fb ↔ 19 ≤ i + digCount l) := by
  induction l with
  | nil =>
    intro i d hi
    simp only [uintLoop, digCount_nil]
    constructor
    · intro h; cases h
    · omega
  | cons c r ih =>
    intro i d hi
    cases hc : isDigit c with
    | true =>
      simp only [uintLoop, hc, if_true, digCount_cons]
      by_cases h18 : i + 1 > 18
      · simp only [h18, if_true]
        constructor
        · intro _; omega
        · intro _; trivial
      · simp only [h18, if_false]
        rw [ih (i + 1) _ (by omega)]
        omega
    | false =>
      simp only [uintLoop, hc, if_false, digCount_cons, Bool.false_eq_true]
      constructor
      · intro h; cases h
      · omega

/-- A non-fallback run of the integer loop consumed a digit prefix, kept the
index at or below 18 and accumulated exactly those digits (modulo `2^64`). -/
theorem uintLoop_done (l : Str) : ∀ (i d d' i' : Nat) (r : Str), i ≤ 18 →
    uintLoop l i d = .done d' i' r →
    ∃ pre, l = pre ++ r ∧ allDigits pre = true ∧ i' = i + pre.length ∧
      i' ≤ 18 ∧
      d' = pre.foldl (fun a c => (a * 10 + (c - 48)) % 2 ^ 64) d ∧
      (r = [] ∨ isDigit (r.headD 0) = false) := by
  induction l with
  | nil =>
    intro i d d' i' r hi h
    simp only [uintLoop, ULoop.done.injEq] at h
    obtain ⟨hd, hi', hr⟩ := h
    exact ⟨[], by simp [← hr, ← hd, ← hi', allDigits, hi]⟩
  | cons c rest ih =>
    intro i d d' i' r hi h
    cases hc : isDigit c with
    | true =>
      simp only [uintLoop, hc, if_true] at h
      by_cases h18 : i + 1 > 18
      · simp only [h18, if_true] at h
        cases h
      · simp only [h18, if_false] at h
        obtain ⟨pre, hpre, hdig, hidx, hle, hfold, hrtl⟩ :=
          ih (i + 1) _ d' i' r (by omega) h
        refine ⟨c :: pre, by simp [hpre], ?_, by simp [hidx]; omega, hle,
          by simp [hfold], hrtl⟩
        simp only [allDigits, List.all_cons, Bool.and_eq_true] at hdig ⊢
        exact ⟨hc, hdig⟩
    | false =>
      simp only [uintLoop, hc, Bool.false_eq_true, if_false,
        ULoop.done.injEq] at h
      obtain ⟨hd, hi', hr⟩ := h
      refine ⟨[], by simp [← hr], by simp [allDigits], by simp [← hi'],
        by omega, by simp [← hd], Or.inr ?_⟩
      rw [← hr]
      simp [hc]

/-- Digit accumulation is bounded: starting from `a`, folding `n` digits
stays below `(a+1) * 10^n`. -/
theorem foldDigits_lt (l : Str) : ∀ a : Nat, allDigits l = true →
    l.foldl (fun x c => x * 10 + (c - 48)) a < (a + 1) * 10 ^ l.length := by
  induction l with
  | nil => intro a _; simp only [List.foldl_nil, List.length_nil, pow_zero,
      mul_one]; omega
  | cons c r ih =>
    intro a h
    simp only [allDigits, List.all_cons, Bool.and_eq_true] at h
    obtain ⟨hc, hr⟩ := h
    simp only [List.foldl_cons, List.length_cons]
    calc r.foldl (fun x c => x * 10 + (c - 48)) (a * 10 + (c - 48))
        < (a * 10 + (c - 48) + 1) * 10 ^ r.length := ih _ hr
      _ ≤ (a + 1) * 10 ^ (r.length + 1) := by
          have h9 : c - 48 ≤ 9 := by
            simp only [isDigit, Bool.and_eq_true, decide_eq_true_eq] at hc
            omega
          have : a * 10 + (c - 48) + 1 ≤ (a + 1) * 10 := by omega
          calc (a * 10 + (c - 48) + 1) * 10 ^ r.length
              ≤ (a + 1) * 10 * 10 ^ r.length :=
                Nat.mul_le_mul_right _ this
            _ = (a + 1) * 10 ^ (r.length + 1) := by ring

/-- As long as the final accumulator fits `uint64`, the `% 2^64` wrap in the
digit fold never fires. -/
theorem foldMod_eq (l : Str) : ∀ a : Nat, allDigits l = true →
    (a + 1) * 10 ^ l.length ≤ 2 ^ 64 →
    l.foldl (fun x c => (x * 10 + (c - 48)) % 2 ^ 64) a
      = l.foldl (fun x c => x * 10 + (c - 48)) a := by
  induction l with
  | nil => intro a _ _; rfl
  | cons c r ih =>
    intro a h hbound
    simp only [allDigits, List.all_cons, Bool.and_eq_true] at h
    obtain ⟨hc, hr⟩ := h
    have h9 : c - 48 ≤ 9 := by
      simp only [isDigit, Bool.and_eq_true, decide_eq_true_eq] at hc
      omega
    have hpow : (1 : Nat) ≤ 10 ^ r.length := Nat.one_le_pow _ _ (by omega)
    have hstep : a * 10 + (c - 48) + 1 ≤ (a + 1) * 10 := by omega
    have hsmall : a * 10 + (c - 48) < 2 ^ 64 := by
      have h1 : (a + 1) * 10 * 1 ≤ (a + 1) * 10 * 10 ^ r.length :=
        Nat.mul_le_mul_left _ hpow
      have h2 : (a + 1) * 10 * 10 ^ r.length = (a + 1) * 10 ^ (r.length + 1) := by
        ring
      simp only [List.length_cons] at hbound
      omega
    simp only [List.foldl_cons, Nat.mod_eq_of_lt hsmall]
    apply ih _ hr
    calc (a * 10 + (c - 48) + 1) * 10 ^ r.length
        ≤ (a + 1) * 10 * 10 ^ r.length := Nat.mul_le_mul_right _ hstep
      _ = (a + 1) * 10 ^ (r.length + 1) := by ring
      _ ≤ 2 ^ 64 := by simp only [List.length_cons] at hbound; exact hbound

/-- On an all-digit prefix that keeps the loop on the fast path, the
accumulator is exactly the numeric value of the digits. -/
theorem uintLoop_value (l : Str) (hdig : allDigits l = true)
    (hlen : l.length ≤ 18) :
    l.foldl (fun a c => (a * 10 + (c - 48)) % 2 ^ 64) 0 = digitsVal l := by
  have hb : (0 + 1) * 10 ^ l.length ≤ 2 ^ 64 := by
    have : (10 : Nat) ^ l.length ≤ 10 ^ 18 := Nat.pow_le_pow_right (by omega) hlen
    omega
  simpa [digitsVal] using foldMod_eq l 0 hdig hb

theorem digitsVal_lt (l : Str) (hdig : allDigits l = true) :
    digitsVal l < 10 ^ l.length := by
  simpa [digitsVal] using foldDigits_lt l 0 hdig

/-- One-step unfolding of `parseUint64Core` on a nonempty input. -/
theorem parseUint64Core_cons (c : Nat) (r : Str) :
    parseUint64Core (c :: r) =
      (match uintLoop (c :: r) 0 0 with
       | .fb => U64Res.fb
       | .done d i rest =>
         if i ≤ 0 then U64Res.err else if rest ≠ [] then U64Res.err
         else U64Res.val d) := by
  unfold parseUint64Core
  rw [if_neg (List.cons_ne_nil c r)]

/-- One-step unfolding of `parseInt64Core` on a `-`-prefixed input with a
nonempty remainder. -/
theorem parseInt64Core_cons_neg (c2 : Nat) (r2 : Str) :
    parseInt64Core (45 :: c2 :: r2) =
      (match uintLoop (c2 :: r2) 1 0 with
       | .fb => I64Res.fb
       | .done d i r =>
         if i ≤ 1 then I64Res.err else if r ≠ [] then I64Res.err
         else I64Res.val (-(d : Int))) := by
  simp [parseInt64Core]

/-- One-step unfolding of `parseInt64Core` on an input that does not start
with `-`. -/
theorem parseInt64Core_cons_pos (c : Nat) (r : Str) (hc : c ≠ 45) :
    parseInt64Core (c :: r) =
      (match uintLoop (c :: r) 0 0 with
       | .fb => I64Res.fb
       | .done d i rest =>
         if i ≤ 0 then I64Res.err else if rest ≠ [] then I64Res.err
         else I64Res.val (d : Int)) := by
  simp [parseInt64Core, hc]

/-- `ParseUint64` (and its best-effort form) delegates exactly when the
input starts with at least 19 digits. -/
theorem parseUint64Core_fb_iff (s : Str) :
    parseUint64Core s = .fb ↔ 19 ≤ digCount s := by
  have hiff : parseUint64Core s = .fb ↔ uintLoop s 0 0 = .fb := by
    cases s with
    | nil =>
      constructor
      · intro h; simp [parseUint64Core] at h
      · intro h; simp [uintLoop] at h
    | cons c r =>
      rw [parseUint64Core_cons]
      cases hu : uintLoop (c :: r) 0 0 with
      | fb => simp
      | done d i rest =>
        show (if i ≤ 0 then U64Res.err else if rest ≠ [] then U64Res.err
            else U64Res.val d) = U64Res.fb ↔ ULoop.done d i rest = ULoop.fb
        constructor
        · intro h; split_ifs at h
        · intro h; cases h
  rw [hiff, uintLoop_fb_iff s 0 0 (by omega), Nat.zero_add]

/-- For a `-`-prefixed input, `ParseInt64` (and its best-effort form)
delegates as soon as 18 digits follow the sign, because the loop index
starts at 1. -/
theorem parseInt64Core_neg_fb_iff (r : Str) :
    parseInt64Core (45 :: r) = .fb ↔ 18 ≤ digCount r := by
  cases r with
  | nil =>
    constructor
    · intro h; simp [parseInt64Core] at h
    · intro h; rw [digCount_nil] at h; omega
  | cons c2 r2 =>
    have hiff : parseInt64Core (45 :: c2 :: r2) = .fb ↔
        uintLoop (c2 :: r2) 1 0 = .fb := by
      rw [parseInt64Core_cons_neg]
      cases hu : uintLoop (c2 :: r2) 1 0 with
      | fb => simp
      | done d i rest =>
        show (if i ≤ 1 then I64Res.err else if rest ≠ [] then I64Res.err
            else I64Res.val (-(d : Int))) = I64Res.fb ↔
          ULoop.done d i rest = ULoop.fb
        constructor
        · intro h; split_ifs at h
        · intro h; cases h
    rw [hiff, uintLoop_fb_iff (c2 :: r2) 1 0 (by omega)]
    omega

/-- For inputs without a leading `-`, `ParseInt64` delegates exactly when at
least 19 digits are consumed, like the unsigned parser. -/
theorem parseInt64Core_pos_fb_iff (s : Str) (hs : s.headD 0 ≠ 45) :
    parseInt64Core s = .fb ↔ 19 ≤ digCount s := by
  cases s with
  | nil =>
    constructor
    · intro h; simp [parseInt64Core] at h
    · intro h; rw [digCount_nil] at h; omega
  | cons c r =>
    have hc : c ≠ 45 := by simpa using hs
    have hiff : parseInt64Core (c :: r) = .fb ↔ uintLoop (c :: r) 0 0 = .fb := by
      rw [parseInt64Core_cons_pos c r hc]
      cases hu : uintLoop (c :: r) 0 0 with
      | fb => simp
      | done d i rest =>
        show (if i ≤ 0 then I64Res.err else if rest ≠ [] then I64Res.err
            else I64Res.val (d : Int)) = I64Res.fb ↔
          ULoop.done d i rest = ULoop.fb
        constructor
        · intro h; split_ifs at h
        · intro h; cases h
    rw [hiff, uintLoop_fb_iff (c :: r) 0 0 (by omega), Nat.zero_add]

/-- A completed fast path of the unsigned digit loop identifies the whole
input as at most 18 digits and yields their exact value. -/
theorem uintLoop_done_value (s : Str) (d i : Nat)
    (hu : uintLoop s 0 0 = .done d i []) (hi : 0 < i) :
    s ≠ [] ∧ allDigits s = true ∧ s.length ≤ 18 ∧ d = digitsVal s ∧
      digitsVal s < 10 ^ 18 := by
  obtain ⟨pre, hpre, hdig, hidx, hle, hfold, -⟩ :=
    uintLoop_done s 0 0 d i [] (by omega) hu
  rw [List.append_nil] at hpre
  subst hpre
  have hlen : s.length ≤ 18 := by omega
  refine ⟨?_, hdig, hlen, ?_, ?_⟩
  · intro hnil; subst hnil; simp at hidx; omega
  · rw [hfold]; exact uintLoop_value s hdig hlen
  · have h10 : digitsVal s < 10 ^ s.length := digitsVal_lt s hdig
    have h18 : (10 : Nat) ^ s.length ≤ 10 ^ 18 :=
      Nat.pow_le_pow_right (by omega) hlen
    omega

/-- Same fact for a loop started at index 1 (after a `-` sign): at most 17
digits on the fast path. -/
theorem uintLoop_done_value_neg (s : Str) (d i : Nat)
    (hu : uintLoop s 1 0 = .done d i []) (hi : 1 < i) :
    s ≠ [] ∧ allDigits s = true ∧ s.length ≤ 17 ∧ d = digitsVal s ∧
      digitsVal s < 10 ^ 17 := by
  obtain ⟨pre, hpre, hdig, hidx, hle, hfold, -⟩ :=
    uintLoop_done s 1 0 d i [] (by omega) hu
  rw [List.append_nil] at hpre
  subst hpre
  have hlen : s.length ≤ 17 := by omega
  refine ⟨?_, hdig, hlen, ?_, ?_⟩
  · intro hnil; subst hnil; simp at hidx; omega
  · rw [hfold]; exact uintLoop_value s hdig (by omega)
  · have h10 : digitsVal s < 10 ^ s.length := digitsVal_lt s hdig
    have h17 : (10 : Nat) ^ s.length ≤ 10 ^ 17 :=
      Nat.pow_le_pow_right (by omega) hlen
    omega

/-- `strconv.ParseUint` on a pure in-range digit string. -/
theorem strconvParseUint_digits (s : Str) (hne : s ≠ [])
    (hdig : allDigits s = true) (hlt : digitsVal s < 2 ^ 64) :
    strconvParseUint s = some (digitsVal s) := by
  unfold strconvParseUint
  rw [if_pos ⟨hne, hdig⟩]
  show (if digitsVal s < 2 ^ 64 then some (digitsVal s) else none) = _
  rw [if_pos hlt]

/-- `strconv.ParseInt` on an unsigned in-range digit string. -/
theorem strconvParseInt_digits_pos (c : Nat) (r : Str) (hm : c ≠ 45)
    (hp : c ≠ 43) (hdig : allDigits (c :: r) = true)
    (hlt : (digitsVal (c :: r) : Int) < 2 ^ 63) :
    strconvParseInt (c :: r) = some ((digitsVal (c :: r) : Int)) := by
  have hnn : (0 : Int) ≤ (digitsVal (c :: r) : Int) := by positivity
  have hor : ¬ (c = 45 ∨ c = 43) := by
    intro h
    rcases h with h | h
    · exact hm h
    · exact hp h
  show (if (if c = 45 ∨ c = 43 then r else c :: r) ≠ [] ∧
        allDigits (if c = 45 ∨ c = 43 then r else c :: r)
      then _ else none) = _
  rw [if_neg hor]
  rw [if_pos ⟨List.cons_ne_nil c r, hdig⟩]
  show (if -2 ^ 63 ≤ (if c = 45 then -(digitsVal (c :: r) : Int)
        else (digitsVal (c :: r) : Int)) ∧
      (if c = 45 then -(digitsVal (c :: r) : Int)
        else (digitsVal (c :: r) : Int)) < 2 ^ 63 then
      some (if c = 45 then -(digitsVal (c :: r) : Int)
        else (digitsVal (c :: r) : Int)) else none) = _
  rw [if_neg hm]
  rw [if_pos ⟨by omega, hlt⟩]

/-- `strconv.ParseInt` on a `-`-prefixed in-range digit string. -/
theorem strconvParseInt_digits_neg (r : Str) (hne : r ≠ [])
    (hdig : allDigits r = true) (hlt : (digitsVal r : Int) < 2 ^ 63) :
    strconvParseInt (45 :: r) = some (-(digitsVal r : Int)) := by
  have hnn : (0 : Int) ≤ (digitsVal r : Int) := by positivity
  show (if (if (45 : Nat) = 45 ∨ (45 : Nat) = 43 then r else 45 :: r) ≠ [] ∧
        allDigits (if (45 : Nat) = 45 ∨ (45 : Nat) = 43 then r else 45 :: r)
      then _ else none) = _
  rw [if_pos (Or.inl rfl)]
  rw [if_pos ⟨hne, hdig⟩]
  show (if -2 ^ 63 ≤ (if (45 : Nat) = 45 then -(digitsVal r : Int)
        else (digitsVal r : Int)) ∧
      (if (45 : Nat) = 45 then -(digitsVal r : Int)
        else (digitsVal r : Int)) < 2 ^ 63 then
      some (if (45 : Nat) = 45 then -(digitsVal r : Int)
        else (digitsVal r : Int)) else none) = _
  rw [if_pos (rfl : (45 : Nat) = 45)]
  rw [if_pos ⟨by omega, by omega⟩]

/-- When `ParseUint64` succeeds it returns `strconv.ParseUint`'s value. -/
theorem ParseUint64_agrees (s : Str) (v : Nat) (h : ParseUint64 s = some v) :
    strconvParseUint s = some v := by
  unfold ParseUint64 at h
  cases hc : parseUint64Core s with
  | err => rw [hc] at h; exact absurd h (by simp)
  | fb => rw [hc] at h; exact h
  | val w =>
    rw [hc] at h
    have hwv : w = v := by
      have h' : some w = some v := h
      injection h'
    subst hwv
    cases s with
    | nil => simp [parseUint64Core] at hc
    | cons c r =>
      rw [parseUint64Core_cons] at hc
      cases hu : uintLoop (c :: r) 0 0 with
      | fb => rw [hu] at hc; exact absurd hc (by simp)
      | done d i rest =>
        rw [hu] at hc
        have hc' : (if i ≤ 0 then U64Res.err else if rest ≠ [] then U64Res.err
            else U64Res.val d) = U64Res.val w := hc
        by_cases h1 : i ≤ 0
        · rw [if_pos h1] at hc'; cases hc'
        · rw [if_neg h1] at hc'
          by_cases h2 : rest ≠ []
          · rw [if_pos h2] at hc'; cases hc'
          · rw [if_neg h2] at hc'
            have hdw : d = w := by injection hc'
            have hrest : rest = [] := by simpa using h2
            subst hrest
            obtain ⟨hne, hdig, hlen, hval, hlt⟩ :=
              uintLoop_done_value (c :: r) d i hu (by omega)
            have hbound : digitsVal (c :: r) < 2 ^ 64 := by
              have h64 : (10 : Nat) ^ 18 < 2 ^ 64 := by norm_num
              omega
            rw [strconvParseUint_digits (c :: r) hne hdig hbound, ← hval, hdw]

/-- When `ParseInt64` succeeds it returns `strconv.ParseInt`'s value. -/
theorem ParseInt64_agrees (s : Str) (v : Int) (h : ParseInt64 s = some v) :
    strconvParseInt s = some v := by
  unfold ParseInt64 at h
  cases hc : parseInt64Core s with
  | err => rw [hc] at h; exact absurd h (by simp)
  | fb => rw [hc] at h; exact h
  | val w =>
    rw [hc] at h
    have hwv : w = v := by
      have h' : some w = some v := h
      injection h'
    subst hwv
    cases s with
    | nil => simp [parseInt64Core] at hc
    | cons c rest =>
      by_cases hm : c = 45
      · subst hm
        cases rest with
        | nil => simp [parseInt64Core] at hc
        | cons c2 r2 =>
          rw [parseInt64Core_cons_neg] at hc
          cases hu : uintLoop (c2 :: r2) 1 0 with
          | fb => rw [hu] at hc; exact absurd hc (by simp)
          | done d i r =>
            rw [hu] at hc
            have hc' : (if i ≤ 1 then I64Res.err else if r ≠ [] then I64Res.err
                else I64Res.val (-(d : Int))) = I64Res.val w := hc
            by_cases h1 : i ≤ 1
            · rw [if_pos h1] at hc'; cases hc'
            · rw [if_neg h1] at hc'
              by_cases h2 : r ≠ []
              · rw [if_pos h2] at hc'; cases hc'
              · rw [if_neg h2] at hc'
                have hdw : -(d : Int) = w := by injection hc'
                have hr : r = [] := by simpa using h2
                subst hr
                obtain ⟨hne, hdig, hlen, hval, hlt⟩ :=
                  uintLoop_done_value_neg (c2 :: r2) d i hu (by omega)
                have hcast : (digitsVal (c2 :: r2) : Int) < 2 ^ 63 := by
                  have hn : digitsVal (c2 :: r2) < 2 ^ 63 := by
                    have h17 : (10 : Nat) ^ 17 ≤ 2 ^ 63 := by norm_num
                    omega
                  exact_mod_cast hn
                rw [strconvParseInt_digits_neg (c2 :: r2) hne hdig hcast,
                  ← hval, hdw]
      · rw [parseInt64Core_cons_pos c rest hm] at hc
        cases hu : uintLoop (c :: rest) 0 0 with
        | fb => rw [hu] at hc; exact absurd hc (by simp)
        | done d i r =>
          rw [hu] at hc
          have hc' : (if i ≤ 0 then I64Res.err else if r ≠ [] then I64Res.err
              else I64Res.val (d : Int)) = I64Res.val w := hc
          by_cases h1 : i ≤ 0
          · rw [if_pos h1] at hc'; cases hc'
          · rw [if_neg h1] at hc'
            by_cases h2 : r ≠ []
            · rw [if_pos h2] at hc'; cases hc'
            · rw [if_neg h2] at hc'
              have hdw : (d : Int) = w := by injection hc'
              have hr : r = [] := by simpa using h2
              subst hr
              obtain ⟨hne, hdig, hlen, hval, hlt⟩ :=
                uintLoop_done_value (c :: rest) d i hu (by omega)
              have hplus : c ≠ 43 := by
                have hcd : isDigit c = true := by
                  simp only [allDigits, List.all_cons, Bool.and_eq_true] at hdig
                  exact hdig.1
                simp only [isDigit, Bool.and_eq_true, decide_eq_true_eq] at hcd
                omega
              have hcast : (digitsVal (c :: rest) : Int) < 2 ^ 63 := by
                have hn : digitsVal (c :: rest) < 2 ^ 63 := by
                  have h18 : (10 : Nat) ^ 18 ≤ 2 ^ 63 := by norm_num
                  omega
                exact_mod_cast hn
              rw [strconvParseInt_digits_pos c rest hm hplus hdig hcast,
                ← hval, hdw]

/-- A successful strict `ParseUint64` and the best-effort form agree. -/
theorem ParseUint64_bestEffort_agrees (s : Str) (v : Nat)
    (h : ParseUint64 s = some v) : ParseUint64BestEffort s = v := by
  unfold ParseUint64 at h
  unfold ParseUint64BestEffort
  cases hc : parseUint64Core s with
  | err => rw [hc] at h; exact absurd h (by simp)
  | fb =>
    rw [hc] at h
    have h' : strconvParseUint s = some v := h
    show (strconvParseUint s).getD 0 = v
    rw [h']; rfl
  | val w =>
    rw [hc] at h
    have h' : some w = some v := h
    show w = v
    injection h'

/-- A successful strict `ParseInt64` and the best-effort form agree. -/
theorem ParseInt64_bestEffort_agrees (s : Str) (v : Int)
    (h : ParseInt64 s = some v) : ParseInt64BestEffort s = v := by
  unfold ParseInt64 at h
  unfold ParseInt64BestEffort
  cases hc : parseInt64Core s with
  | err => rw [hc] at h; exact absurd h (by simp)
  | fb =>
    rw [hc] at h
    have h' : strconvParseInt s = some v := h
    show (strconvParseInt s).getD 0 = v
    rw [h']; rfl
  | val w =>
    rw [hc] at h
    have h' : some w = some v := h
    show w = v
    injection h'



/-! ## Claim C2: integer-parser delegation boundary -/

/-- **C2 (amended).** The integer parsers (`ParseUint64`, `ParseInt64` and
their best-effort forms) accumulate digits into their own 64-bit accumulator
and abandon it for the standard library exactly when the loop index `i`
exceeds 18.  For inputs without a leading `-` this means delegation exactly
when at least 19 digits are consumed, but for `-`-prefixed inputs the index
starts at 1 after the stripped sign, so delegation happens as soon as 18
digits follow the sign.  On every input where the strict parsers succeed the
returned value equals the standard library's result, and the best-effort
forms return that same value — in particular at the 18- and 19-digit
boundaries, positive or negative. -/
theorem int64_delegation_boundary :
    (∀ s : Str, (parseUint64Core s = .fb ↔ 19 ≤ digCount s)) ∧
    (∀ r : Str, (parseInt64Core (45 :: r) = .fb ↔ 18 ≤ digCount r)) ∧
    (∀ s : Str, s.headD 0 ≠ 45 → (parseInt64Core s = .fb ↔ 19 ≤ digCount s)) ∧
    (∀ (s : Str) (v : Nat), ParseUint64 s = some v →
      strconvParseUint s = some v) ∧
    (∀ (s : Str) (v : Int), ParseInt64 s = some v →
      strconvParseInt s = some v) ∧
    (∀ (s : Str) (v : Nat), ParseUint64 s = some v →
      ParseUint64BestEffort s = v) ∧
    (∀ (s : Str) (v : Int), ParseInt64 s = some v →
      ParseInt64BestEffort s = v) :=
  ⟨parseUint64Core_fb_iff, parseInt64Core_neg_fb_iff, parseInt64Core_pos_fb_iff,
   ParseUint64_agrees, ParseInt64_agrees,
   ParseUint64_bestEffort_agrees, ParseInt64_bestEffort_agrees⟩

/-- **C2 (witness).** The boundary characterization and the agreement with
the standard library, instantiated at concrete inputs: `ParseInt64` on the
18-digit negative `-100000000000000000` delegates, and a successful parse of
`-123` matches `strconv.ParseInt`. -/
theorem int64_delegation_boundary_witness :
    parseInt64Core (45 :: strBytes "100000000000000000") = .fb ∧
    strconvParseInt (strBytes "-123") = some (-123) :=
  ⟨(int64_delegation_boundary.2.1 (strBytes "100000000000000000")).mpr
     (by decide),
   int64_delegation_boundary.2.2.2.2.1 (strBytes "-123") (-123) (by decide)⟩

/-- **C2 (counterexample).** The claim says the integer parsers delegate to
the standard library exactly when more than 18 digits are consumed, with a
leading `-` merely stripped first.  But for `-100000000000000000` — a minus
sign followed by exactly 18 digits — `ParseInt64` already delegates
(`parseInt64Core` returns its fallback marker), because the loop index
starts at 1 after the sign, so only `18` (not more than 18) digits have been
consumed. -/
theorem int64_delegation_counterexample :
    parseInt64Core (strBytes "-100000000000000000") = .fb ∧
    digCount (strBytes "-100000000000000000").tail = 18 ∧ ¬ (18 > 18) := by
  decide

/-! ## Claim C3: float mantissa fallback boundary -/

/-- **C3 (amended).** In the fractional-part loop of `Parse` (and
`ParseBestEffort`, which shares its control flow) the fallback check is
`i - j ≥ len(float64pow10)` with `len(float64pow10) = 17`, where `i - j`
counts the integer digits, the decimal point `.` itself, and the fractional
digits consumed so far.  Hence for an input `a ++ "." ++ b` made of an
integer digit part `a` (possibly empty, at most 18 digits) and a nonempty
fractional digit part `b`, the parser falls back to `strconv.ParseFloat`
exactly when the mantissa `a ++ b` has at least 16 digits, and otherwise
finishes on the fractional fast path: a 15-digit mantissa is handled on the
fast path and a 16-digit (or longer, in particular 17- and 18-digit)
mantissa falls back. -/
theorem mantissa_fallback_boundary :
    float64pow10.length = 17 ∧
    ∀ a b : Str, allDigits a = true → allDigits b = true → b ≠ [] →
      a.length ≤ 18 →
      parsePath (a ++ 46 :: b) =
        (if 16 ≤ a.length + b.length then FPath.fbMant else FPath.fastFrac) := by
  refine ⟨rfl, ?_⟩
  intro a b ha hb hbne hlen
  cases b with
  | nil => exact absurd rfl hbne
  | cons b0 br =>
  have hb0 : isDigit b0 = true := by
    simp only [allDigits, List.all_cons, Bool.and_eq_true] at hb
    exact hb.1
  cases a with
  | nil =>
    have hil : fIntLoop (46 :: b0 :: br) 0 = Sum.inr (0, 46 :: b0 :: br) := by
      simp [fIntLoop, isDigit]
    show (if (46 : Nat) = 46 ∧ ((b0 :: br : Str) = [] ∨
          isDigit ((b0 :: br).headD 0) = false) then FPath.errDotFormat
        else match fIntLoop (46 :: b0 :: br) 0 with
          | Sum.inl _ => FPath.fbInt
          | Sum.inr (i, rest) => fAfterInt i 0 rest) = _
    rw [if_neg (by
      intro h
      rcases h.2 with h2 | h2
      · exact List.cons_ne_nil b0 br h2
      · rw [List.headD_cons] at h2
        cases hb0.symm.trans h2)]
    rw [hil]
    show fAfterInt 0 0 (46 :: b0 :: br) = _
    rw [fAfterInt_dot, fFracPart_digits (b0 :: br) 0 0 hb
      (List.cons_ne_nil b0 br) (by omega)]
    by_cases h16 : 16 ≤ (b0 :: br).length
    · rw [if_pos (by simp only [List.length_cons] at h16 ⊢; omega),
        if_pos (by simp only [List.length_nil]; omega)]
    · rw [if_neg (by simp only [List.length_cons] at h16 ⊢; omega),
        if_neg (by simp only [List.length_nil]; omega)]
  | cons a0 ar =>
    have ha0 : isDigit a0 = true := by
      simp only [allDigits, List.all_cons, Bool.and_eq_true] at ha
      exact ha.1
    have hbounds : 48 ≤ a0 ∧ a0 ≤ 57 := by
      simp only [isDigit, Bool.and_eq_true, decide_eq_true_eq] at ha0
      exact ha0
    have h45 : a0 ≠ 45 := by omega
    have h46 : a0 ≠ 46 := by omega
    have hil : fIntLoop ((a0 :: ar) ++ 46 :: b0 :: br) 0 =
        Sum.inr (0 + (a0 :: ar).length, 46 :: b0 :: br) :=
      fIntLoop_digits (a0 :: ar) (46 :: b0 :: br) 0 ha (by omega)
        (Or.inr (by rw [List.headD_cons]; decide))
    show (if (a0 = 45) ∧ (ar ++ 46 :: b0 :: br : Str) = [] then FPath.errMinusOnly
        else
          match (if a0 = 45 then ar ++ 46 :: b0 :: br
              else a0 :: (ar ++ 46 :: b0 :: br)) with
          | [] => FPath.errMinusOnly
          | c0 :: brest =>
            if c0 = 46 ∧ (brest = [] ∨ isDigit (brest.headD 0) = false) then
              FPath.errDotFormat
            else
              match fIntLoop (if a0 = 45 then ar ++ 46 :: b0 :: br
                  else a0 :: (ar ++ 46 :: b0 :: br)) (if a0 = 45 then 1 else 0) with
              | Sum.inl _ => FPath.fbInt
              | Sum.inr (i, rest) =>
                fAfterInt i (if a0 = 45 then 1 else 0) rest) = _
    rw [if_neg (fun h => h45 h.1)]
    rw [if_neg h45]
    rw [if_neg h45]
    show (if (a0 = 46) ∧ ((ar ++ 46 :: b0 :: br : Str) = [] ∨
          isDigit ((ar ++ 46 :: b0 :: br).headD 0) = false) then FPath.errDotFormat
        else match fIntLoop (a0 :: (ar ++ 46 :: b0 :: br)) 0 with
          | Sum.inl _ => FPath.fbInt
          | Sum.inr (i, rest) => fAfterInt i 0 rest) = _
    rw [if_neg (fun h => h46 h.1)]
    rw [show (a0 :: (ar ++ 46 :: b0 :: br) : Str) = (a0 :: ar) ++ 46 :: b0 :: br
      from (List.cons_append a0 ar _).symm]
    rw [hil]
    show fAfterInt (0 + (a0 :: ar).length) 0 (46 :: b0 :: br) = _
    rw [fAfterInt_dot, fFracPart_digits (b0 :: br) (0 + (a0 :: ar).length) 0 hb
      (List.cons_ne_nil b0 br) (by omega)]
    by_cases h16 : 16 ≤ (a0 :: ar).length + (b0 :: br).length
    · rw [if_pos (by simp only [List.length_cons] at h16 ⊢; omega), if_pos h16]
    · rw [if_neg (by simp only [List.length_cons] at h16 ⊢; omega), if_neg h16]

/-- **C3 (witness).** The boundary theorem at concrete inputs: the 15-digit
mantissa `1.23456789012345` stays on the fast path, while the 16-digit
mantissa `1.234567890123456` falls back. -/
theorem mantissa_fallback_boundary_witness :
    parsePath (strBytes "1" ++ 46 :: strBytes "23456789012345") =
      FPath.fastFrac ∧
    parsePath (strBytes "1" ++ 46 :: strBytes "234567890123456") =
      FPath.fbMant := by
  constructor
  · rw [mantissa_fallback_boundary.2 (strBytes "1") (strBytes "23456789012345")
      (by decide) (by decide) (by decide) (by decide)]
    decide
  · rw [mantissa_fallback_boundary.2 (strBytes "1") (strBytes "234567890123456")
      (by decide) (by decide) (by decide) (by decide)]
    decide

/-- **C3 (counterexample).** The claim says the float parser falls back
exactly when the mantissa reaches 17 digits and that a 17-digit mantissa is
handled on the fast path.  Both are false: `1.2345678901234567` (17 mantissa
digits) falls back, and so does `1.234567890123456` (16 mantissa digits),
because the loop's counter `i - j` also counts the decimal point. -/
theorem mantissa_fallback_counterexample :
    parsePath (strBytes "1.2345678901234567") = FPath.fbMant ∧
    parsePath (strBytes "1.234567890123456") = FPath.fbMant := by
  decide

/-! ## Claim C9: scanner EOF and sticky-error behaviour -/

/-- **C9.** Once only whitespace (or nothing) remains, `Next` returns false,
records the internal EOF sentinel, and `Error` reports no error; and after
any recorded error, every `Next` call returns false with the state unchanged
(so the error is sticky and no parsing happens), while `Error` still
translates the EOF sentinel to "no error". -/
theorem scanner_eof_and_sticky :
    (∀ sc : Scanner, sc.err = none → skipWS sc.s = [] →
      sc.next.1 = false ∧ sc.next.2.err = some .eof ∧
        sc.next.2.error = none) ∧
    (∀ sc : Scanner, sc.err ≠ none → sc.next = (false, sc)) ∧
    (∀ (sc : Scanner) (n : Nat), sc.err ≠ none →
      Nat.iterate (fun st => st.next.2) n sc = sc) := by
  refine ⟨?_, ?_, ?_⟩
  · intro sc h1 h2
    simp [Scanner.next, Scanner.error, h1, h2]
  · intro sc h
    simp [Scanner.next, h]
  · intro sc n h
    induction n with
    | zero => rfl
    | succ k ih =>
      rw [Function.iterate_succ_apply]
      have hnext : sc.next = (false, sc) := by simp [Scanner.next, h]
      rw [hnext]
      exact ih

/-- **C9 (witness).** The EOF behaviour on a freshly initialized empty
scanner, and stickiness on a scanner that has recorded a parse error. -/
theorem scanner_eof_and_sticky_witness :
    ((Scanner.init []).next.1 = false ∧
      (Scanner.init []).next.2.err = some .eof ∧
      (Scanner.init []).next.2.error = none) ∧
    Scanner.next ⟨[49], some (.parseErr .emptyInput), none⟩ =
      (false, ⟨[49], some (.parseErr .emptyInput), none⟩) :=
  ⟨scanner_eof_and_sticky.1 (Scanner.init []) rfl rfl,
   scanner_eof_and_sticky.2.1 ⟨[49], some (.parseErr .emptyInput), none⟩
     (by simp)⟩

/-! ## Claims C7 and C10: object lookup, visiting and their side effects -/

/-- `List.find?` skips a prefix with no matching key. -/
theorem find_first_match (pre post : List (Str × Val)) (key : Str) (v : Val)
    (h : ∀ p ∈ pre, p.1 ≠ key) :
    (pre ++ (key, v) :: post).find? (fun p => decide (p.1 = key)) =
      some (key, v) := by
  induction pre with
  | nil => simp [List.find?]
  | cons q t ih =>
    rw [List.cons_append, List.find?_cons_of_neg, ih]
    · intro p hp
      exact h p (List.mem_cons_of_mem q hp)
    · simp only [decide_eq_true_eq]
      exact h q (List.mem_cons_self q t)

/-- **C7.** On an object fresh from the parser (`keysUnescaped = false`),
`Object.Get` with a backslash-free key returns the value of the first entry
in insertion order whose stored key matches, even when later duplicates
exist; and `Object.Visit` passes every entry to its callback — duplicates
included — in the original parse order (with keys unescaped first). -/
theorem duplicate_keys_first_wins :
    (∀ (pre post : List (Str × Val)) (key : Str) (v : Val),
      (idxOf 92 key).isNone = true →
      (∀ p ∈ pre, p.1 ≠ key) →
      (objectGet (pre ++ (key, v) :: post, false) key).1 = some v) ∧
    (∀ kvs : List (Str × Val),
      (objectVisit (kvs, false)).1 =
        kvs.map (fun p => (unescapeStringBestEffort p.1, p.2))) := by
  constructor
  · intro pre post key v hbk hpre
    simp [objectGet, hbk, find_first_match pre post key v hpre]
  · intro kvs
    simp [objectVisit, unescapeKeys]

/-- **C7 (witness).** On the object `{"a": 1, "b": 2, "a": 3}` with a
duplicate key `"a"`, `Get "a"` returns the first value `1` and `Visit`
reports all three entries in order. -/
theorem duplicate_keys_first_wins_witness :
    (objectGet ([([97], Val.vNumber [49]), ([98], Val.vNumber [50]),
        ([97], Val.vNumber [51])], false) [97]).1 = some (Val.vNumber [49]) ∧
    (objectVisit ([([97], Val.vNumber [49]), ([98], Val.vNumber [50]),
        ([97], Val.vNumber [51])], false)).1 =
      [([97], Val.vNumber [49]), ([98], Val.vNumber [50]),
        ([97], Val.vNumber [51])] :=
  ⟨duplicate_keys_first_wins.1 [] [([98], Val.vNumber [50]),
      ([97], Val.vNumber [51])] [97] (Val.vNumber [49]) (by decide)
      (by intro p hp; cases hp),
   by
    have h := duplicate_keys_first_wins.2 [([97], Val.vNumber [49]),
      ([98], Val.vNumber [50]), ([97], Val.vNumber [51])]
    rw [h]
    rfl⟩

/-- **C10.** `Object.Get` is not observably read-only.  Whenever its raw
fast-path scan does not return a value — the key is absent from the raw
keys, the search key contains a backslash, or the keys were already
unescaped — the post-state is exactly `unescapeKeys` of the object: with the
flag previously unset every stored key is rewritten to its unescaped form
and `keysUnescaped` is set.  `MarshalTo` emits keys raw while the flag is
unset and routes them through `escapeString` once it is set, so serializing
the same object after a failed lookup can produce different bytes: the
object `{"a\/b": null}` marshals as `{"a\/b":null}` before and as
`{"a/b":null}` after a failed `Get`.  `Del` (on a missing key), `Set` and
`Visit` leave the object in the same rewritten state. -/
theorem get_rewrites_keys_observably :
    (∀ (kvs : List (Str × Val)) (key : Str),
      kvs.find? (fun p => decide (p.1 = key)) = none →
      (objectGet (kvs, false) key).2 =
        (kvs.map (fun p => (unescapeStringBestEffort p.1, p.2)), true)) ∧
    (∀ (kvs : List (Str × Val)) (key : Str),
      (idxOf 92 key).isNone = false →
      (objectGet (kvs, false) key).2 =
        (kvs.map (fun p => (unescapeStringBestEffort p.1, p.2)), true)) ∧
    (∀ (kvs : List (Str × Val)) (key : Str) (v : Val),
      (objectGet (kvs, true) key).2 = (kvs, true) ∧
      (objectDel (kvs, false) key =
        (if (idxOf 92 key).isNone ∧
            (kvs.find? (fun p => decide (p.1 = key))).isSome then
          (removeFirst kvs key, false)
        else
          (removeFirst
            (kvs.map (fun p => (unescapeStringBestEffort p.1, p.2))) key,
            true))) ∧
      (objectSet (kvs, false) key v =
        (setFirst (kvs.map (fun p => (unescapeStringBestEffort p.1, p.2)))
          key v, true)) ∧
      (objectVisit (kvs, false)).2 =
        (kvs.map (fun p => (unescapeStringBestEffort p.1, p.2)), true)) ∧
    (∀ (dst : Str) (k : Str),
      marshalKey dst k false = dst ++ [34] ++ k ++ [34] ∧
      marshalKey dst k true = escapeString dst k) ∧
    (marshalValue [] (.vObject [(strBytes "a\\/b", Val.vNull)] false) =
        strBytes "\x7b\"a\\/b\":null\x7d" ∧
      (objectGet ([(strBytes "a\\/b", Val.vNull)], false)
        (strBytes "zz")).1 = none ∧
      marshalValue []
        (.vObject
          (objectGet ([(strBytes "a\\/b", Val.vNull)], false)
            (strBytes "zz")).2.1
          (objectGet ([(strBytes "a\\/b", Val.vNull)], false)
            (strBytes "zz")).2.2) = strBytes "\x7b\"a/b\":null\x7d" ∧
      strBytes "\x7b\"a\\/b\":null\x7d" ≠ strBytes "\x7b\"a/b\":null\x7d") := by
  refine ⟨?_, ?_, ?_, ?_, ?_⟩
  · intro kvs key hmiss
    by_cases hbk : (idxOf 92 key).isNone
    · simp [objectGet, hbk, hmiss, unescapeKeys]
    · simp [objectGet, hbk, unescapeKeys]
  · intro kvs key hbk
    simp [objectGet, hbk, unescapeKeys]
  · intro kvs key v
    refine ⟨?_, ?_, ?_, ?_⟩
    · simp [objectGet, unescapeKeys]
    · by_cases hc : (idxOf 92 key).isNone ∧
          (kvs.find? (fun p => decide (p.1 = key))).isSome
      · rw [if_pos hc]
        simp [objectDel, hc.1, hc.2]
      · rw [if_neg hc]
        simp only [objectDel, unescapeKeys]
        rw [if_neg (by
          intro hx
          exact hc ⟨hx.2.1, hx.2.2⟩)]
        simp
    · simp [objectSet, unescapeKeys]
    · simp [objectVisit, unescapeKeys]
  · intro dst k
    exact ⟨rfl, rfl⟩
  · refine ⟨by rfl, by rfl, by rfl, by decide⟩

/-- **C10 (witness).** A failed `Get` for the absent key `"b"` on
`{"a": null}` leaves the keys rewritten and the flag set. -/
theorem get_rewrites_keys_observably_witness :
    (objectGet ([([97], Val.vNull)], false) [98]).2 =
      ([([97], Val.vNull)].map
        (fun p => (unescapeStringBestEffort p.1, p.2)), true) :=
  get_rewrites_keys_observably.1 [([97], Val.vNull)] [98] rfl

/-! ## Claim C5: surrogate pairs and orphan escapes in the unescaper -/

/-- **C5 (counterexample).** The claim says every unpaired (orphan)
surrogate escape is emitted literally, unchanged.  But for
`\uD834\u0041` — a high surrogate whose following escape is a
syntactically valid `\uXXXX` that is *not* a low surrogate —
`unescapeStringBestEffort` consumes both escapes and emits the three UTF-8
bytes of U+FFFD (the replacement character), not the source bytes. -/
theorem orphan_surrogate_counterexample :
    unescapeStringBestEffort (strBytes "\\uD834\\u0041") =
      [0xEF, 0xBF, 0xBD] ∧
    unescapeStringBestEffort (strBytes "\\uD834\\u0041") ≠
      strBytes "\\uD834\\u0041" := by
  constructor
  · rfl
  · decide

/-- **C5 (amended).** The unescaper combines `\uXXXX\uYYYY` with `XXXX` a
high surrogate and `YYYY` a low surrogate into the single code point's
UTF-8 bytes (`𝄞` yields U+1D11E as 4 bytes).  A surrogate escape
*not* followed by a syntactically valid `\uYYYY` escape — too little input,
or ordinary text following — is emitted literally, as are truncated or
malformed `\u` escapes and unknown `\?` escapes (the unescaper is total and
never aborts).  But when a surrogate escape *is* followed by a valid
`\uYYYY` that does not complete a surrogate pair, both escapes are consumed
and the UTF-8 bytes of U+FFFD are emitted instead of the source bytes. -/
theorem unescape_surrogate_amended :
    unescapeStringBestEffort (strBytes "\\uD834\\uDD1E") =
      [240, 157, 132, 158] ∧
    unescapeStringBestEffort (strBytes "\\uD834") = strBytes "\\uD834" ∧
    unescapeStringBestEffort (strBytes "\\uD834xy") = strBytes "\\uD834xy" ∧
    unescapeStringBestEffort (strBytes "\\uAB") = strBytes "\\uAB" ∧
    unescapeStringBestEffort (strBytes "\\uDD1E\\u0041") =
      [0xEF, 0xBF, 0xBD] ∧
    ∀ ch : Nat, ch ∉ ([34, 92, 47, 98, 102, 110, 114, 116, 117] : List Nat) →
      unescapeStringBestEffort [92, ch] = [92, ch] := by
  refine ⟨by rfl, by rfl, by rfl, by rfl, by rfl, ?_⟩
  intro ch hch
  simp only [List.mem_cons, not_or] at hch
  obtain ⟨h34, h92, h47, h98, h102, h110, h114, h116, h117, -⟩ := hch
  show unescapeLoop 3 [] [ch] = [92, ch]
  unfold unescapeLoop
  rw [if_neg h34, if_neg h92, if_neg h47, if_neg h98, if_neg h102,
    if_neg h110, if_neg h114, if_neg h116, if_neg h117]
  rfl

/-- **C5 (witness).** The literal-preservation conjunct instantiated at the
unknown escape `\q`. -/
theorem unescape_surrogate_amended_witness :
    unescapeStringBestEffort [92, 113] = [92, 113] :=
  unescape_surrogate_amended.2.2.2.2.2 113 (by decide)

/-! ## Claim C6: raw strings round-trip byte-identically -/

/-- `idxOf` finds a real occurrence. -/
theorem idxOf_some (c : Nat) (s : Str) : ∀ n, idxOf c s = some n →
    n < s.length ∧ s.getD n 0 = c := by
  induction s with
  | nil => intro n h; cases h
  | cons b rest ih =>
    intro n h
    simp only [idxOf] at h
    by_cases hbc : b = c
    · rw [if_pos hbc] at h
      have hn : 0 = n := by injection h
      subst hn
      exact ⟨by simp, by simpa using hbc⟩
    · rw [if_neg hbc] at h
      cases hr : idxOf c rest with
      | none => rw [hr] at h; cases h
      | some k =>
        rw [hr] at h
        have hnk : k + 1 = n := by
          simp only [Option.map_some'] at h
          injection h
        subst hnk
        obtain ⟨h1, h2⟩ := ih k hr
        exact ⟨by simp only [List.length_cons]; omega, by simpa using h2⟩

/-- A list splits at a position holding the byte `34`. -/
theorem reconstruct_at (l : Str) (n : Nat) (h1 : n < l.length)
    (h2 : l.getD n 0 = 34) : l = l.take n ++ 34 :: l.drop (n + 1) := by
  conv_lhs => rw [← List.take_append_drop n l]
  congr 1
  rw [List.drop_eq_getElem_cons h1]
  congr 1
  rw [List.getD_eq_getElem l 0 h1] at h2
  exact h2

/-- Taking a prefix-plus-offset from an append. -/
theorem take_prefix_append (p s : Str) (n : Nat) :
    (p ++ s).take (p.length + n) = p ++ s.take n := by
  induction p with
  | nil => simp
  | cons a t ih =>
    rw [List.cons_append, List.length_cons,
      show t.length + 1 + n = (t.length + n) + 1 from by omega,
      List.take_succ_cons, ih, List.cons_append]

/-- The two successful exits of the raw-string scan reconstruct the scanned
slice: prefix, quote, tail. -/
theorem ok_exit (p s : Str) (n : Nat) (hn : n < s.length)
    (hq : s.getD n 0 = 34) :
    p ++ s = (p ++ s).take ((p ++ s).length - s.length + n) ++
      34 :: s.drop (n + 1) := by
  have hm : (p ++ s).length - s.length + n = p.length + n := by
    simp only [List.length_append]; omega
  rw [hm, take_prefix_append]
  conv_lhs => rw [reconstruct_at s n hn hq]
  rw [List.append_assoc]

/-- The slow-path loop of `parseRawString` returns a split of the original
slice at an unescaped quote. -/
theorem prsLoop_split : ∀ (fuel : Nat) (ss s : Str) (n : Nat)
    (raw tail p : Str), ss = p ++ s → n < s.length → s.getD n 0 = 34 →
    prsLoop ss fuel s n = .ok (raw, tail) → ss = raw ++ 34 :: tail := by
  intro fuel
  induction fuel with
  | zero =>
    intro ss s n raw tail p hp hn hq h
    cases h
  | succ f ih =>
    intro ss s n raw tail p hp hn hq h
    subst hp
    unfold prsLoop at h
    by_cases heven : (n - backCount s (n - 1)) % 2 = 0
    · rw [if_pos heven] at h
      have h' : ((p ++ s).take ((p ++ s).length - s.length + n),
          s.drop (n + 1)) = (raw, tail) := by injection h
      have hraw := congrArg Prod.fst h'
      have htail := congrArg Prod.snd h'
      simp only at hraw htail
      rw [← hraw, ← htail]
      exact ok_exit p s n hn hq
    · rw [if_neg heven] at h
      cases hidx : idxOf 34 (s.drop (n + 1)) with
      | none => rw [hidx] at h; cases h
      | some n2 =>
        rw [hidx] at h
        have h2 : (if n2 = 0 ∨ (s.drop (n + 1)).getD (n2 - 1) 0 ≠ 92 then
            (Except.ok ((p ++ s).take ((p ++ s).length -
              (s.drop (n + 1)).length + n2),
              (s.drop (n + 1)).drop (n2 + 1)) : Except PErr (Str × Str))
          else prsLoop (p ++ s) f (s.drop (n + 1)) n2) =
            Except.ok (raw, tail) := h
        obtain ⟨hn2, hq2⟩ := idxOf_some 34 (s.drop (n + 1)) n2 hidx
        have hp2 : p ++ s = (p ++ s.take (n + 1)) ++ s.drop (n + 1) := by
          rw [List.append_assoc, List.take_append_drop]
        by_cases hfast : n2 = 0 ∨ (s.drop (n + 1)).getD (n2 - 1) 0 ≠ 92
        · rw [if_pos hfast] at h2
          have h' : ((p ++ s).take ((p ++ s).length -
              (s.drop (n + 1)).length + n2),
              (s.drop (n + 1)).drop (n2 + 1)) = (raw, tail) := by injection h2
          have hraw := congrArg Prod.fst h'
          have htail := congrArg Prod.snd h'
          simp only at hraw htail
          rw [← hraw, ← htail, hp2]
          exact ok_exit (p ++ s.take (n + 1)) (s.drop (n + 1)) n2 hn2 hq2
        · rw [if_neg hfast] at h2
          exact ih (p ++ s) (s.drop (n + 1)) n2 raw tail (p ++ s.take (n + 1))
            hp2 hn2 hq2 h2

/-- A successful `parseRawString` splits its input as
`raw ++ '"' ++ tail`. -/
theorem parseRawString_split (s raw tail : Str)
    (h : parseRawString s = .ok (raw, tail)) : s = raw ++ 34 :: tail := by
  unfold parseRawString at h
  cases hidx : idxOf 34 s with
  | none => rw [hidx] at h; cases h
  | some n =>
    rw [hidx] at h
    have h2 : (if n = 0 ∨ s.getD (n - 1) 0 ≠ 92 then
        (Except.ok (s.take n, s.drop (n + 1)) : Except PErr (Str × Str))
      else prsLoop s (s.length + 1) s n) = Except.ok (raw, tail) := h
    obtain ⟨hn, hq⟩ := idxOf_some 34 s n hidx
    by_cases hfast : n = 0 ∨ s.getD (n - 1) 0 ≠ 92
    · rw [if_pos hfast] at h2
      have h' : (s.take n, s.drop (n + 1)) = (raw, tail) := by injection h2
      have hraw := congrArg Prod.fst h'
      have htail := congrArg Prod.snd h'
      simp only at hraw htail
      rw [← hraw, ← htail]
      exact reconstruct_at s n hn hq
    · rw [if_neg hfast] at h2
      exact prsLoop_split (s.length + 1) s s n raw tail [] (by simp) hn hq h2

/-- **C6.** A string value still held raw is marshaled as a double quote,
the raw payload with no re-escaping, and a closing double quote; combined
with the split property of `parseRawString` this makes an unmodified parsed
string byte-identical to its re-emitted form: re-emitting the value parsed
from `'"' ++ s` reproduces exactly the consumed bytes of the input. -/
theorem rawstring_roundtrip :
    ∀ (s raw tail : Str), parseRawString s = .ok (raw, tail) →
      marshalValue [] (.vRawString raw) = 34 :: (raw ++ [34]) ∧
      marshalValue [] (.vRawString raw) ++ tail = 34 :: s := by
  intro s raw tail h
  have hm : marshalValue [] (.vRawString raw) = 34 :: (raw ++ [34]) := by
    rw [marshalValue]
    simp
  refine ⟨hm, ?_⟩
  rw [hm, parseRawString_split s raw tail h]
  simp

/-- **C6 (witness).** Round-trip of the raw string parsed from
`"a\"b"xyz` (an escaped quote inside): the re-emitted bytes followed by the
tail reproduce the input. -/
theorem rawstring_roundtrip_witness :
    marshalValue [] (.vRawString (strBytes "a\\\"b")) ++ strBytes "xyz" =
      34 :: strBytes "a\\\"b\"xyz" :=
  (rawstring_roundtrip (strBytes "a\\\"b\"xyz") (strBytes "a\\\"b")
    (strBytes "xyz") rfl).2

/-! ## Claim C8: control characters in strings — parser vs validator -/

/-- `idxOf` finds the first occurrence after a byte-free prefix. -/
theorem idxOf_append_cons (c : Nat) (l : Str) (h : idxOf c l = none)
    (r : Str) : idxOf c (l ++ c :: r) = some l.length := by
  induction l with
  | nil => simp [idxOf]
  | cons a t ih =>
    simp only [idxOf] at h
    by_cases hac : a = c
    · rw [if_pos hac] at h; cases h
    · rw [if_neg hac] at h
      have ht : idxOf c t = none := by
        cases hr : idxOf c t with
        | none => rfl
        | some k => rw [hr] at h; cases h
      rw [List.cons_append]
      simp only [idxOf, if_neg hac, ih ht, Option.map_some', List.length_cons]

/-- A byte that `idxOf` never finds differs from every element. -/
theorem idxOf_none_getD (c : Nat) (l : Str) (h : idxOf c l = none) :
    ∀ i, i < l.length → l.getD i 0 ≠ c := by
  induction l with
  | nil => intro i hi; simp at hi
  | cons b rest ih =>
    intro i hi
    simp only [idxOf] at h
    by_cases hbc : b = c
    · rw [if_pos hbc] at h; cases h
    · rw [if_neg hbc] at h
      have hr : idxOf c rest = none := by
        cases hr' : idxOf c rest with
        | none => rfl
        | some k => rw [hr'] at h; cases h
      cases i with
      | zero => simpa using hbc
      | succ j =>
        simp only [List.getD_cons_succ]
        exact ih hr j (by simp only [List.length_cons] at hi; omega)

/-- Dropping a prefix-plus-offset from an append. -/
theorem drop_prefix_append (p s : Str) (n : Nat) :
    (p ++ s).drop (p.length + n) = s.drop n := by
  induction p with
  | nil => simp
  | cons a t ih =>
    rw [List.cons_append, List.length_cons,
      show t.length + 1 + n = (t.length + n) + 1 from by omega,
      List.drop_succ_cons, ih]

/-- `parseRawString` on a payload free of quotes and backslashes, closed by
one final quote: the fast path returns the payload and an empty tail. -/
theorem parseRawString_noesc (payload : Str)
    (h34 : idxOf 34 payload = none) (h92 : idxOf 92 payload = none) :
    parseRawString (payload ++ [34]) = .ok (payload, []) := by
  have ht : (payload ++ [34]).take payload.length = payload := by
    have h := take_prefix_append payload [34] 0
    simp only [Nat.add_zero, List.take_zero, List.append_nil] at h
    exact h
  have hd : (payload ++ [34]).drop (payload.length + 1) = [] := by
    have h := drop_prefix_append payload [34] 1
    simp only [List.drop_succ_cons, List.drop_nil] at h
    exact h
  have hcond : payload.length = 0 ∨
      (payload ++ [34]).getD (payload.length - 1) 0 ≠ 92 := by
    cases hp : payload with
    | nil => exact Or.inl rfl
    | cons c rest =>
      right
      have hlt : (c :: rest).length - 1 < (c :: rest).length := by
        simp only [List.length_cons]; omega
      have hget : ((c :: rest) ++ [34]).getD ((c :: rest).length - 1) 0 =
          (c :: rest).getD ((c :: rest).length - 1) 0 :=
        List.getD_append _ _ _ _ hlt
      rw [hget]
      exact idxOf_none_getD 92 (c :: rest) (hp ▸ h92) _ hlt
  unfold parseRawString
  rw [idxOf_append_cons 34 payload h34 []]
  have h2 : (if payload.length = 0 ∨
        (payload ++ [34]).getD (payload.length - 1) 0 ≠ 92 then
      (Except.ok ((payload ++ [34]).take payload.length,
        (payload ++ [34]).drop (payload.length + 1)) :
        Except PErr (Str × Str))
    else prsLoop (payload ++ [34]) ((payload ++ [34]).length + 1)
      (payload ++ [34]) payload.length) =
      (Except.ok (payload, []) : Except PErr (Str × Str)) := by
    rw [if_pos hcond, ht, hd]
  exact h2

/-- One step of `parseValue` on a string opener (depth within bounds). -/
theorem parseValueF_quote (fuel : Nat) (hf : 1 ≤ fuel) (rest : Str)
    (depth : Nat) (hd : depth + 1 ≤ MaxDepth) :
    parseValueF fuel (34 :: rest) depth =
      (match parseRawString rest with
       | .error e => .error (.inString e)
       | .ok (ss, tail) => .ok (.vRawString ss, tail)) := by
  cases fuel with
  | zero => omega
  | succ f =>
    have key : parseValueF (f + 1) (34 :: rest) depth =
        (if depth + 1 > MaxDepth then .error .tooDeep
         else match parseRawString rest with
           | .error e => .error (.inString e)
           | .ok (ss, tail) => .ok (.vRawString ss, tail)) := rfl
    rw [key, if_neg (by omega)]

/-- `validateString` on a payload free of quotes and backslashes: the fast
path returns the payload and an empty tail. -/
theorem validateString_noesc (payload : Str)
    (h34 : idxOf 34 payload = none) (h92 : idxOf 92 payload = none) :
    validateString (payload ++ [34]) = .ok (payload, []) := by
  have ht : (payload ++ [34]).take payload.length = payload := by
    have h := take_prefix_append payload [34] 0
    simp only [Nat.add_zero, List.take_zero, List.append_nil] at h
    exact h
  have hd : (payload ++ [34]).drop (payload.length + 1) = [] := by
    have h := drop_prefix_append payload [34] 1
    simp only [List.drop_succ_cons, List.drop_nil] at h
    exact h
  unfold validateString
  rw [idxOf_append_cons 34 payload h34 []]
  have h2 : (if (idxOf 92 ((payload ++ [34]).take payload.length)).isNone then
      (Except.ok ((payload ++ [34]).take payload.length,
        (payload ++ [34]).drop (payload.length + 1)) :
        Except VErr (Str × Str))
    else
      match parseRawString (payload ++ [34]) with
      | .error _ => .error .missingStringClose
      | .ok (rs, tail) =>
        match vStrLoop (rs.length + 1) rs with
        | .error e => .error e
        | .ok _ => .ok (rs, tail)) =
      (Except.ok (payload, []) : Except VErr (Str × Str)) := by
    rw [ht, hd, if_pos (by rw [h92]; rfl)]
  exact h2

/-- One step of `validateValue` on a string opener. -/
theorem validateValueF_quote (fuel : Nat) (hf : 1 ≤ fuel) (rest : Str) :
    validateValueF fuel (34 :: rest) =
      (match validateString rest with
       | .error e => .error (.inString e)
       | .ok (sv, tail) =>
         match sv.find? (fun b => decide (b < 32)) with
         | some b => .error (.ctrlChar b)
         | none => .ok tail) := by
  cases fuel with
  | zero => omega
  | succ f => rfl

/-- **C8.** For a (single-string) JSON document whose string literal
contains a byte below `0x20`: `Parser.Parse` accepts it without error,
returning the raw string value, while `Validate` rejects it with an error
identifying the first control character. -/
theorem ctrl_chars_parser_vs_validator :
    ∀ (payload : Str) (b : Nat),
      idxOf 34 payload = none → idxOf 92 payload = none →
      payload.find? (fun c => decide (c < 32)) = some b →
      Parse (34 :: (payload ++ [34])) = .ok (.vRawString payload) ∧
      Validate (34 :: (payload ++ [34])) =
        some (.cannotParseJSON (.ctrlChar b)) := by
  intro payload b h34 h92 hfind
  constructor
  · have key : Parse (34 :: (payload ++ [34])) =
        (match parseValueF (4 * (34 :: (payload ++ [34])).length + 8)
            (34 :: (payload ++ [34])) 0 with
         | .error e => (.error (.cannotParseJSON e) : Except TopErr Val)
         | .ok (v, tail) =>
           if skipWS tail ≠ [] then .error .unexpectedTail else .ok v) := rfl
    have hq := parseValueF_quote (4 * (34 :: (payload ++ [34])).length + 8)
      (by omega) (payload ++ [34]) 0 (by simp [MaxDepth])
    rw [key, hq, parseRawString_noesc payload h34 h92]
    rfl
  · have key : Validate (34 :: (payload ++ [34])) =
        (match validateValueF (4 * (34 :: (payload ++ [34])).length + 8)
            (34 :: (payload ++ [34])) with
         | .error e => some (.cannotParseJSON e)
         | .ok tail =>
           if skipWS tail ≠ [] then some .unexpectedTail else none) := rfl
    have hq := validateValueF_quote (4 * (34 :: (payload ++ [34])).length + 8)
      (by omega) (payload ++ [34])
    rw [key, hq, validateString_noesc payload h34 h92]
    show (match (match payload.find? (fun c => decide (c < 32)) with
          | some b0 => (Except.error (VErr.ctrlChar b0) : Except VErr Str)
          | none => Except.ok []) with
        | .error e => some (VTopErr.cannotParseJSON e)
        | .ok tail =>
          if skipWS tail ≠ [] then some VTopErr.unexpectedTail else none) =
      some (VTopErr.cannotParseJSON (VErr.ctrlChar b))
    rw [hfind]

/-- **C8 (witness).** The document `"<LF>"` (a string holding a bare line
feed): parsed fine, rejected by the validator naming byte `0x0A`. -/
theorem ctrl_chars_parser_vs_validator_witness :
    Parse (34 :: ([10] ++ [34])) = .ok (.vRawString [10]) ∧
    Validate (34 :: ([10] ++ [34])) =
      some (.cannotParseJSON (.ctrlChar 10)) :=
  ctrl_chars_parser_vs_validator [10] 10 rfl rfl rfl

/-! ## C4: the depth limit -/

/-- One step of `parseValue` on an array opener (depth within bounds). -/
theorem parseValueF_bracket (fuel : Nat) (hf : 1 ≤ fuel) (rest : Str)
    (depth : Nat) (hd : depth + 1 ≤ MaxDepth) :
    parseValueF fuel (91 :: rest) depth =
      (match parseArrayF (fuel - 1) rest (depth + 1) with
       | .error e => .error (.inArray e)
       | .ok r => .ok r) := by
  cases fuel with
  | zero => omega
  | succ f =>
    have key : parseValueF (f + 1) (91 :: rest) depth =
        (if depth + 1 > MaxDepth then .error .tooDeep
         else match parseArrayF f rest (depth + 1) with
           | .error e => .error (.inArray e)
           | .ok r => .ok r) := rfl
    rw [key, if_neg (by omega)]
    rfl

/-- One step of `parseValue` when the depth limit is hit: the check fires
before any dispatch on the byte. -/
theorem parseValueF_deep (fuel : Nat) (hf : 1 ≤ fuel) (c : Nat) (rest : Str)
    (depth : Nat) (hd : MaxDepth < depth + 1) :
    parseValueF fuel (c :: rest) depth = .error .tooDeep := by
  cases fuel with
  | zero => omega
  | succ f =>
    simp only [parseValueF]
    rw [if_pos hd]

/-- One step of `parseArray` on an immediate `]`: the empty array. -/
theorem parseArrayF_close (fuel : Nat) (hf : 1 ≤ fuel) (rest : Str)
    (depth : Nat) :
    parseArrayF fuel (93 :: rest) depth = .ok (.vArray [], rest) := by
  cases fuel with
  | zero => omega
  | succ f => rfl

/-- One step of `parseArray` on a nested `[`: enter the element loop. -/
theorem parseArrayF_open (fuel : Nat) (hf : 1 ≤ fuel) (rest : Str)
    (depth : Nat) :
    parseArrayF fuel (91 :: rest) depth =
      parseArrayLoopF (fuel - 1) [] (91 :: rest) depth := by
  cases fuel with
  | zero => omega
  | succ f => rfl

/-- One step of the array element loop when the element starts with `[`. -/
theorem parseArrayLoopF_cons91 (fuel : Nat) (hf : 1 ≤ fuel) (acc : List Val)
    (rest : Str) (depth : Nat) :
    parseArrayLoopF fuel acc (91 :: rest) depth =
      (match parseValueF (fuel - 1) (91 :: rest) depth with
       | .error e => .error (.inArrayValue e)
       | .ok (v, s1) =>
         match skipWS s1 with
         | [] => .error .unexpectedEndArray
         | c :: r2 =>
           if c = 44 then parseArrayLoopF (fuel - 1) (acc ++ [v]) r2 depth
           else if c = 93 then .ok (.vArray (acc ++ [v]), r2)
           else .error .missingCommaArray) := by
  cases fuel with
  | zero => omega
  | succ f => rfl

/-- On the pure bracket-nest family, `parseValue` succeeds whenever the
entry depth plus the nesting stays within `MaxDepth`, returning the nested
array value and the untouched tail. -/
theorem parse_nest_ok (n : Nat) : ∀ d t fuel, d + (n + 1) ≤ 300 →
    3 * n + 4 ≤ fuel →
    parseValueF fuel
      (List.replicate (n + 1) 91 ++ (List.replicate (n + 1) 93 ++ t)) d =
      .ok (nestVal n, t) := by
  induction n with
  | zero =>
    intro d t fuel hd hf
    have h1 : List.replicate 1 91 ++ (List.replicate 1 93 ++ t) =
        91 :: 93 :: t := rfl
    rw [h1, parseValueF_bracket fuel (by omega) _ d
          (by simp only [MaxDepth]; omega),
        parseArrayF_close (fuel - 1) (by omega)]
    rfl
  | succ m ih =>
    intro d t fuel hd hf
    have h93 : List.replicate (m + 2) 93 ++ t =
        List.replicate (m + 1) 93 ++ (93 :: t) := by
      rw [List.replicate_succ' (m + 1) 93, List.append_assoc]
      rfl
    have h1 : List.replicate (m + 2) 91 ++ (List.replicate (m + 2) 93 ++ t) =
        91 :: (List.replicate (m + 1) 91 ++
          (List.replicate (m + 1) 93 ++ (93 :: t))) := by
      rw [h93]
      rfl
    have h2 : List.replicate (m + 1) 91 ++
        (List.replicate (m + 1) 93 ++ (93 :: t)) =
        91 :: (List.replicate m 91 ++
          (List.replicate (m + 1) 93 ++ (93 :: t))) := rfl
    rw [h1, parseValueF_bracket fuel (by omega) _ d
          (by simp only [MaxDepth]; omega),
        h2, parseArrayF_open (fuel - 1) (by omega),
        parseArrayLoopF_cons91 (fuel - 1 - 1) (by omega) [] _ (d + 1)]
    have hih := ih (d + 1) (93 :: t) (fuel - 1 - 1 - 1) (by omega) (by omega)
    rw [h2] at hih
    rw [hih]
    rfl

/-- On the bracket-nest family with the entry depth chosen so that the
limit is crossed `n` levels down, `parseValue` fails with the too-deep
error wrapped `n` times. -/
theorem parse_nest_err (n : Nat) : ∀ d t fuel, d + n = 300 →
    3 * n + 4 ≤ fuel →
    parseValueF fuel (List.replicate (n + 1) 91 ++ t) d =
      .error (depthErr n) := by
  induction n with
  | zero =>
    intro d t fuel hd hf
    have h1 : List.replicate 1 91 ++ t = 91 :: t := rfl
    rw [h1, parseValueF_deep fuel (by omega) 91 t d
          (by simp only [MaxDepth]; omega)]
    rfl
  | succ m ih =>
    intro d t fuel hd hf
    have h1 : List.replicate (m + 2) 91 ++ t =
        91 :: (List.replicate (m + 1) 91 ++ t) := rfl
    have h2 : List.replicate (m + 1) 91 ++ t =
        91 :: (List.replicate m 91 ++ t) := rfl
    rw [h1, parseValueF_bracket fuel (by omega) _ d
          (by simp only [MaxDepth]; omega),
        h2, parseArrayF_open (fuel - 1) (by omega),
        parseArrayLoopF_cons91 (fuel - 1 - 1) (by omega) [] _ (d + 1)]
    have hih := ih (d + 1) t (fuel - 1 - 1 - 1) (by omega) (by omega)
    rw [h2] at hih
    rw [hih]
    rfl

/-- **C4.** `MaxDepth` equals 300, and on the pure bracket-nest family
`[`×n `]`×n the parser accepts every nesting depth up to 300 (returning
the nested array value, with no depth error) and rejects every depth
beyond 300 with the structural too-deep error, wrapped by the 300 array
levels entered before the check fired. -/
theorem depth_limit_300 :
    MaxDepth = 300 ∧
    ∀ n : Nat, 1 ≤ n →
      (n ≤ 300 →
        Parse (List.replicate n 91 ++ List.replicate n 93) =
          .ok (nestVal (n - 1))) ∧
      (300 < n →
        Parse (List.replicate n 91 ++ List.replicate n 93) =
          .error (.cannotParseJSON (depthErr 300))) := by
  refine ⟨rfl, ?_⟩
  intro n hn
  obtain ⟨m, rfl⟩ : ∃ m, n = m + 1 := ⟨n - 1, by omega⟩
  have hlen : (List.replicate (m + 1) 91 ++ List.replicate (m + 1) 93).length
      = 2 * m + 2 := by
    simp only [List.length_append, List.length_replicate]
    omega
  have key : Parse (List.replicate (m + 1) 91 ++ List.replicate (m + 1) 93) =
      (match parseValueF
          (4 * (List.replicate (m + 1) 91 ++
            List.replicate (m + 1) 93).length + 8)
          (List.replicate (m + 1) 91 ++ List.replicate (m + 1) 93) 0 with
       | .error e => (.error (.cannotParseJSON e) : Except TopErr Val)
       | .ok (v, tail) =>
         if skipWS tail ≠ [] then .error .unexpectedTail else .ok v) := rfl
  constructor
  · intro hle
    have hok := parse_nest_ok m 0 ([] : Str)
      (4 * (List.replicate (m + 1) 91 ++ List.replicate (m + 1) 93).length + 8)
      (by omega) (by rw [hlen]; omega)
    rw [List.append_nil] at hok
    rw [key, hok]
    rfl
  · intro hgt
    have hsplit : List.replicate (m + 1) 91 ++ List.replicate (m + 1) 93 =
        List.replicate 301 91 ++
          (List.replicate (m - 300) 91 ++ List.replicate (m + 1) 93) := by
      rw [← List.append_assoc, ← List.replicate_add]
      have hm : 301 + (m - 300) = m + 1 := by omega
      rw [hm]
    have herr := parse_nest_err 300 0
      (List.replicate (m - 300) 91 ++ List.replicate (m + 1) 93)
      (4 * (List.replicate (m + 1) 91 ++ List.replicate (m + 1) 93).length + 8)
      (by omega) (by rw [hlen]; omega)
    rw [← hsplit] at herr
    rw [key, herr]

/-- **C4 (witness).** `[[]]` (depth 2) parses to the nested array; 301
nested brackets fail with the wrapped too-deep error. -/
theorem depth_limit_300_witness :
    Parse (List.replicate 2 91 ++ List.replicate 2 93) = .ok (nestVal 1) ∧
    Parse (List.replicate 301 91 ++ List.replicate 301 93) =
      .error (.cannotParseJSON (depthErr 300)) :=
  ⟨(depth_limit_300.2 2 (by decide)).1 (by decide),
   (depth_limit_300.2 301 (by decide)).2 (by decide)⟩

end Fastjson
